import Mathlib

/-!
Verification of the documentation-generator core of `compile_script_docs.py`
(EmptyEpsilon). The Python classes `ScriptFunction`, `ScriptMember`,
`ScriptClass` and the passes `readFunctionInfo`, `readScriptDefinitions`,
`linkFunctions`, `linkParents`, `addFile` of `DocumentationGenerator` are
shallowly embedded below. Lines of the scanned source files are embedded at
the level of the regular-expression match results the script computes per
line (one optional field per regex, applied in the order of the code);
object identity and in-place mutation are embedded by indexing into the
definition list, and the `print` diagnostics by an explicit list of emitted
class names. Exceptions (attribute errors on `None`) are embedded with
`Except Unit`.
-/

namespace EmptyEpsilonDocs

/-- Python `str.strip()` (both-ends whitespace strip), used on regex groups. -/
def strip (s : String) : String :=
  ⟨((s.data.dropWhile Char.isWhitespace).reverse.dropWhile Char.isWhitespace).reverse⟩

/-- `class ScriptFunction` of `compile_script_docs.py`: `__init__` sets
`description = ""`, `origin_class = None`, `parameters = None`. -/
structure ScriptFunction where
  name : String
  description : String := ""
  origin_class : Option String := none
  parameters : Option String := none
deriving DecidableEq

/-- `class ScriptMember` of `compile_script_docs.py`. -/
structure ScriptMember where
  name : String
  description : String := ""
  origin_class : Option String := none
deriving DecidableEq

/-- `class ScriptClass` of `compile_script_docs.py`. The Python fields
`parent` (an object reference) and `children` (a list of object references)
are embedded as an index and a list of indices into the definition list. -/
structure ScriptClass where
  name : String
  parent_name : Option String := none
  parent : Option Nat := none
  description : String := ""
  children : List Nat := []
  create : Bool := true
  functions : List ScriptFunction := []
  members : List ScriptMember := []
  callbacks : List String := []
deriving DecidableEq

/-- An entry of `DocumentationGenerator._definitions`: either a
`ScriptClass` or a top-level `ScriptFunction`. -/
inductive Definition where
  | cls (c : ScriptClass)
  | fn (f : ScriptFunction)
deriving DecidableEq

deriving instance DecidableEq for Except

/-- The `.name` attribute, defined on both kinds of definitions. -/
def defName : Definition → String
  | .cls c => c.name
  | .fn f => f.name

/-- The condition of `linkFunctions`:
`(func.origin_class == class_name) and func.name == function_name`
(in Python, `None == class_name` is false). -/
def funcMatches (class_name function_name : String) (f : ScriptFunction) : Bool :=
  f.origin_class == some class_name && f.name == function_name

/-- The assignment `func.parameters = parameters` of `linkFunctions`, guarded
by `funcMatches`, as a per-function update. -/
def linkFuncUpd (t : String × String × String) (f : ScriptFunction) : ScriptFunction :=
  if funcMatches t.1 t.2.1 f then { f with parameters := some t.2.2 } else f

/-- One iteration of the outer loop of `DocumentationGenerator.linkFunctions`:
for a `(class_name, function_name, parameters)` triple, every function of
every `ScriptClass` definition whose origin class and name match receives the
triple's parameter text. -/
def linkFunctionsStep (defs : List Definition) (t : String × String × String) :
    List Definition :=
  defs.map fun d =>
    match d with
    | .cls c => .cls { c with functions := c.functions.map (linkFuncUpd t) }
    | .fn f => .fn f

/-- `DocumentationGenerator.linkFunctions`: the outer loop runs over
`self._function_info` in order, so later matching triples overwrite the
assignment made by earlier ones. -/
def linkFunctions (defs : List Definition)
    (function_info : List (String × String × String)) : List Definition :=
  function_info.foldl linkFunctionsStep defs

/-- The function stored at position `j` of the class stored at position `i`. -/
def funcAt (defs : List Definition) (i j : Nat) : Option ScriptFunction :=
  match defs[i]? with
  | some (.cls c) => c.functions[j]?
  | _ => none

theorem linkFunctionsStep_getElem (defs : List Definition) (t : String × String × String)
    (i : Nat) (c : ScriptClass) (h : defs[i]? = some (.cls c)) :
    (linkFunctionsStep defs t)[i]? =
      some (.cls { c with functions := c.functions.map (linkFuncUpd t) }) := by
  unfold linkFunctionsStep
  rw [List.getElem?_map, h]
  rfl

/-- C1 (amended): after `linkFunctions`, a declared class function whose
origin-class tag and name are matched by at least one Signature Table triple
holds the raw parameter text of the LAST matching triple in scan order (each
matching triple overwrites the previous assignment); a function with no
matching triple keeps its `parameters` field unchanged (absent when it was
absent before linking). Name, origin class and description are untouched. -/
theorem c1_last_match_wins (function_info : List (String × String × String)) :
    ∀ (defs : List Definition) (i j : Nat) (c : ScriptClass) (f : ScriptFunction),
    defs[i]? = some (.cls c) → c.functions[j]? = some f →
    ∃ c' f', (linkFunctions defs function_info)[i]? = some (.cls c') ∧
      c'.functions[j]? = some f' ∧
      f'.name = f.name ∧ f'.origin_class = f.origin_class ∧
      f'.description = f.description ∧
      f'.parameters =
        (match (function_info.filter fun t => funcMatches t.1 t.2.1 f).getLast? with
         | some t => some t.2.2
         | none => f.parameters) := by
  induction function_info with
  | nil =>
    intro defs i j c f hc hf
    exact ⟨c, f, hc, hf, rfl, rfl, rfl, rfl⟩
  | cons t rest ih =>
    intro defs i j c f hc hf
    have hstep := linkFunctionsStep_getElem defs t i c hc
    have hf1 : ({ c with functions := c.functions.map (linkFuncUpd t) } :
          ScriptClass).functions[j]? = some (linkFuncUpd t f) := by
      show (c.functions.map _)[j]? = _
      rw [List.getElem?_map, hf]
      rfl
    have hlf : linkFunctions defs (t :: rest) =
        linkFunctions (linkFunctionsStep defs t) rest := rfl
    rcases ih (linkFunctionsStep defs t) i j _ _ hstep hf1 with
      ⟨c', f', hc', hf', hn, ho, hd, hp⟩
    by_cases hm : funcMatches t.1 t.2.1 f
    · have hupd : linkFuncUpd t f = { f with parameters := some t.2.2 } := by
        simp [linkFuncUpd, hm]
      rw [hupd] at hn ho hd hp
      have hmatchEq : (fun t' : String × String × String =>
          funcMatches t'.1 t'.2.1 { f with parameters := some t.2.2 }) =
          (fun t' => funcMatches t'.1 t'.2.1 f) := by
        funext t'
        simp [funcMatches]
      rw [hmatchEq] at hp
      refine ⟨c', f', by rw [hlf]; exact hc', hf', by simpa using hn, by simpa using ho,
        by simpa using hd, ?_⟩
      rw [hp]
      have hfilter : (t :: rest).filter (fun t' => funcMatches t'.1 t'.2.1 f) =
          t :: rest.filter (fun t' => funcMatches t'.1 t'.2.1 f) := by
        simp [List.filter_cons, hm]
      rw [hfilter]
      cases hrf : rest.filter (fun t' => funcMatches t'.1 t'.2.1 f) with
      | nil => simp
      | cons x xs =>
        rw [List.getLast?_cons_cons]
        cases hgl : (x :: xs).getLast? with
        | none => simp at hgl
        | some a => rfl
    · have hupd : linkFuncUpd t f = f := by
        simp [linkFuncUpd, hm]
      rw [hupd] at hn ho hd hp
      refine ⟨c', f', by rw [hlf]; exact hc', hf', hn, ho, hd, ?_⟩
      rw [hp]
      have hfilter : (t :: rest).filter (fun t' => funcMatches t'.1 t'.2.1 f) =
          rest.filter (fun t' => funcMatches t'.1 t'.2.1 f) := by
        simp [List.filter_cons, hm]
      rw [hfilter]

/-- A class function used to exhibit the scan-order behaviour of
`linkFunctions` on a concrete model. -/
def c1f : ScriptFunction := { name := "f", origin_class := some "A" }

/-- A one-class model with the single function `c1f`. -/
def c1defs : List Definition := [Definition.cls { name := "A", functions := [c1f] }]

/-- A Signature Table with two triples matching `c1f`, carrying parameter
texts `"p1"` (first in scan order) and `"p2"` (last in scan order). -/
def c1info : List (String × String × String) := [("A", "f", "p1"), ("A", "f", "p2")]

/-- C1 (counterexample): with two Signature Table triples matching the same
declared class function, `linkFunctions` leaves the parameters of the raw
text of the LAST matching triple (`"p2"`), not of the first (`"p1"`) as the
claim states. -/
theorem c1_counterexample :
    funcAt (linkFunctions c1defs c1info) 0 0 =
      some { name := "f", origin_class := some "A", parameters := some "p2" } ∧
    some "p2" ≠ some "p1" := by
  constructor
  · decide
  · decide

/-- C1 (witness): the amended theorem applied to the concrete two-triple
model. -/
theorem c1_witness :
    ∃ c' f', (linkFunctions c1defs c1info)[0]? = some (Definition.cls c') ∧
      c'.functions[0]? = some f' ∧
      f'.name = c1f.name ∧ f'.origin_class = c1f.origin_class ∧
      f'.description = c1f.description ∧
      f'.parameters =
        (match (c1info.filter fun t => funcMatches t.1 t.2.1 c1f).getLast? with
         | some t => some t.2.2
         | none => c1f.parameters) :=
  c1_last_match_wins c1info c1defs 0 0 { name := "A", functions := [c1f] } c1f rfl rfl

/-! `DocumentationGenerator.linkParents`. The pass iterates over the
definition list; for a `ScriptClass` with a `parent_name` it scans the whole
list for a definition with that name, sets `parent` and appends itself to the
match's `children` (an `AttributeError` — embedded as `Except.error ()` —
when the match is a plain `ScriptFunction`, which has no `children`), and
prints a diagnostic when no parent was found (embedded as a list of emitted
class names); for a `ScriptClass` without a `parent_name` it synthesizes the
`isValid`/`destroy` functions and the `typeName` member. -/

/-- The function synthesized by `f = definition.addFunction("isValid")` with
`f.parameters = ""` and the fixed description. -/
def isValidFn : ScriptFunction :=
  { name := "isValid"
    description := "Check if this is still looking at a valid object. Returns false when the objects that this variable references is destroyed."
    parameters := some "" }

/-- The function synthesized by `f = definition.addFunction("destroy")` with
`f.parameters = ""` and the fixed description. -/
def destroyFn : ScriptFunction :=
  { name := "destroy"
    description := "Removes this object from the game."
    parameters := some "" }

/-- The member synthesized by `f = definition.addMember("typeName")` with the
fixed description. -/
def typeNameMember : ScriptMember :=
  { name := "typeName"
    description := "Returns the class name of this object, this is not a function, but a direct member: if object.typeName == \"Mine\" then print(\"MINE!\") end" }

/-- `definition.parent = d` where `d` sits at index `j`. -/
def setClsParent (j : Nat) : Definition → Definition
  | .cls c => .cls { c with parent := some j }
  | .fn f => .fn f

/-- `definition.parent = d`: the mutation of the class at index `i`, whose
parent is recorded as index `j`. -/
def innerSetParent (i j : Nat) (defs : List Definition) : List Definition :=
  match defs[i]? with
  | some di => defs.set i (setClsParent j di)
  | none => defs

/-- `d.children.append(definition)`: appending index `i` to the children of
the definition at index `j`; raises (`.error`) when that definition is a
`ScriptFunction`, which has no `children` attribute. -/
def innerAppendChild (i j : Nat) (defs1 : List Definition) :
    Except Unit (List Definition) :=
  match defs1[j]? with
  | some (.cls c) => .ok (defs1.set j (.cls { c with children := c.children ++ [i] }))
  | some (.fn _) => .error ()
  | none => .error ()

/-- One iteration of the inner loop of `linkParents` for the class at index
`i` with parent name `pn`, inspecting the definition at index `j`: on a name
match, `definition.parent = d` and then `d.children.append(definition)`. -/
def innerStep (i j : Nat) (pn : String) (defs : List Definition) :
    Except Unit (List Definition) :=
  match defs[j]? with
  | none => .ok defs
  | some d =>
    if defName d = pn then innerAppendChild i j (innerSetParent i j defs)
    else .ok defs

/-- The inner loop of `linkParents` over the indices in `js`. -/
def innerLoop (i : Nat) (pn : String) : List Nat → List Definition → Except Unit (List Definition)
  | [], defs => .ok defs
  | j :: js, defs =>
    match innerStep i j pn defs with
    | .error e => .error e
    | .ok defs1 => innerLoop i pn js defs1

/-- The synthesized root augmentation: `addFunction("isValid")`,
`addFunction("destroy")`, `addMember("typeName")` with their fixed fields. -/
def synthRoot (c : ScriptClass) : ScriptClass :=
  { c with functions := c.functions ++ [isValidFn, destroyFn]
           members := c.members ++ [typeNameMember] }

/-- One iteration of the outer loop of `linkParents` for the definition at
index `i`; the state is the definition list plus the names printed by
`print("Parent not found for: ", definition)`. -/
def outerStep (i : Nat) (st : List Definition × List String) :
    Except Unit (List Definition × List String) :=
  match st.1[i]? with
  | some (.cls c) =>
    match c.parent_name with
    | some pn =>
      match innerLoop i pn (List.range st.1.length) st.1 with
      | .error e => .error e
      | .ok defs1 =>
        match defs1[i]? with
        | some (.cls c1) =>
          if c1.parent = none then .ok (defs1, st.2 ++ [c1.name]) else .ok (defs1, st.2)
        | _ => .ok (defs1, st.2)
    | none => .ok (st.1.set i (.cls (synthRoot c)), st.2)
  | _ => .ok st

/-- The outer loop of `linkParents` over the indices in `is`. -/
def linkParentsLoop : List Nat → List Definition × List String →
    Except Unit (List Definition × List String)
  | [], st => .ok st
  | i :: is, st =>
    match outerStep i st with
    | .error e => .error e
    | .ok st1 => linkParentsLoop is st1

/-- `DocumentationGenerator.linkParents`: result list plus the names of the
classes for which a "Parent not found" diagnostic was printed. -/
def linkParents (defs : List Definition) :
    Except Unit (List Definition × List String) :=
  linkParentsLoop (List.range defs.length) (defs, [])

/-- The class fields never modified by `linkParents`. -/
def clsFrame (c c' : ScriptClass) : Prop :=
  c'.name = c.name ∧ c'.parent_name = c.parent_name ∧ c'.create = c.create ∧
  c'.description = c.description ∧ c'.callbacks = c.callbacks

theorem clsFrame_rfl (c : ScriptClass) : clsFrame c c := ⟨rfl, rfl, rfl, rfl, rfl⟩

theorem clsFrame_trans {c c' c'' : ScriptClass} (h1 : clsFrame c c') (h2 : clsFrame c' c'') :
    clsFrame c c'' :=
  ⟨h2.1.trans h1.1, h2.2.1.trans h1.2.1, h2.2.2.1.trans h1.2.2.1,
   h2.2.2.2.1.trans h1.2.2.2.1, h2.2.2.2.2.trans h1.2.2.2.2⟩

/-- What one iteration of the inner loop of `linkParents` for class index `i`
can do to the list: lengths, `ScriptFunction` entries, and all class fields
except `parent` (only at `i`) and `children` (only appending copies of `i`)
are untouched. -/
def InnerFrame (i : Nat) (defs out : List Definition) : Prop :=
  out.length = defs.length ∧
  (∀ (k : Nat) (f : ScriptFunction),
    defs[k]? = some (Definition.fn f) → out[k]? = some (Definition.fn f)) ∧
  (∀ (k : Nat) (c : ScriptClass),
    defs[k]? = some (Definition.cls c) →
    ∃ c', out[k]? = some (Definition.cls c') ∧ clsFrame c c' ∧
    c'.functions = c.functions ∧ c'.members = c.members ∧
    (∃ t, c'.children = c.children ++ t ∧ ∀ x ∈ t, x = i) ∧
    (k ≠ i → c'.parent = c.parent))

theorem InnerFrame_rfl (i : Nat) (defs : List Definition) : InnerFrame i defs defs :=
  ⟨rfl, fun _ _ hf => hf,
   fun _ c hc => ⟨c, hc, clsFrame_rfl c, rfl, rfl, ⟨[], by simp, by simp⟩, fun _ => rfl⟩⟩

theorem InnerFrame_trans {i : Nat} {d1 d2 d3 : List Definition}
    (h1 : InnerFrame i d1 d2) (h2 : InnerFrame i d2 d3) : InnerFrame i d1 d3 := by
  refine ⟨h2.1.trans h1.1, fun k f hf => h2.2.1 k f (h1.2.1 k f hf), fun k c hc => ?_⟩
  rcases h1.2.2 k c hc with ⟨c', hc', hfr, hfu, hme, ⟨t, hch, hts⟩, hpa⟩
  rcases h2.2.2 k c' hc' with ⟨c'', hc'', hfr', hfu', hme', ⟨t', hch', hts'⟩, hpa'⟩
  refine ⟨c'', hc'', clsFrame_trans hfr hfr', hfu'.trans hfu, hme'.trans hme,
    ⟨t ++ t', ?_, ?_⟩, fun hk => (hpa' hk).trans (hpa hk)⟩
  · rw [hch', hch, List.append_assoc]
  · intro x hx
    rcases List.mem_append.mp hx with hx | hx
    · exact hts x hx
    · exact hts' x hx

theorem innerStep_eq_none {i j : Nat} {pn : String} {defs : List Definition}
    (hj : defs[j]? = none) : innerStep i j pn defs = .ok defs := by
  unfold innerStep
  rw [hj]

theorem innerStep_eq_nomatch {i j : Nat} {pn : String} {defs : List Definition}
    {d : Definition} (hj : defs[j]? = some d) (hd : defName d ≠ pn) :
    innerStep i j pn defs = .ok defs := by
  unfold innerStep
  rw [hj]
  simp [hd]

theorem innerStep_eq_match {i j : Nat} {pn : String} {defs : List Definition}
    {d : Definition} (hj : defs[j]? = some d) (hd : defName d = pn) :
    innerStep i j pn defs = innerAppendChild i j (innerSetParent i j defs) := by
  unfold innerStep
  rw [hj]
  simp [hd]

theorem innerSetParent_length (i j : Nat) (defs : List Definition) :
    (innerSetParent i j defs).length = defs.length := by
  unfold innerSetParent
  cases defs[i]? <;> simp

theorem innerSetParent_getElem_ne {i j k : Nat} (defs : List Definition) (hk : k ≠ i) :
    (innerSetParent i j defs)[k]? = defs[k]? := by
  unfold innerSetParent
  cases defs[i]? with
  | none => rfl
  | some di => exact List.getElem?_set_ne (fun h => hk h.symm)

theorem innerSetParent_getElem_self {i j : Nat} {defs : List Definition} {di : Definition}
    (hi : defs[i]? = some di) :
    (innerSetParent i j defs)[i]? = some (setClsParent j di) := by
  unfold innerSetParent
  rw [hi]
  exact List.getElem?_set_self (List.getElem?_eq_some.mp hi).1

theorem innerStep_frame {i j : Nat} {pn : String} {defs out : List Definition}
    (h : innerStep i j pn defs = .ok out) : InnerFrame i defs out := by
  cases hj : defs[j]? with
  | none =>
    rw [innerStep_eq_none hj] at h
    injection h with h
    subst h
    exact InnerFrame_rfl i defs
  | some d =>
    by_cases hd : defName d = pn
    · rw [innerStep_eq_match hj hd] at h
      unfold innerAppendChild at h
      split at h
      next c1 heq =>
        injection h with h
        subst h
        have hjlen : j < (innerSetParent i j defs).length :=
          (List.getElem?_eq_some.mp heq).1
        refine ⟨?_, ?_, ?_⟩
        · rw [List.length_set, innerSetParent_length]
        · intro k f hf
          by_cases hkj : k = j
          · subst hkj
            by_cases hki : k = i
            · subst hki
              rw [innerSetParent_getElem_self hf] at heq
              exact absurd heq (by simp [setClsParent])
            · rw [innerSetParent_getElem_ne defs hki, hf] at heq
              exact absurd heq (by simp)
          · rw [List.getElem?_set_ne (fun hh => hkj hh.symm)]
            by_cases hki : k = i
            · subst hki
              rw [innerSetParent_getElem_self hf]
              rfl
            · rw [innerSetParent_getElem_ne defs hki]
              exact hf
        · intro k c hc
          by_cases hkj : k = j
          · subst hkj
            by_cases hki : k = i
            · subst hki
              rw [innerSetParent_getElem_self hc] at heq
              have hc1 : c1 = { c with parent := some k } := by
                have := Option.some.inj heq
                simpa [setClsParent] using this.symm
              subst hc1
              refine ⟨{ c with parent := some k, children := c.children ++ [k] },
                ?_, clsFrame_rfl c, rfl, rfl, ⟨[k], rfl, by simp⟩,
                fun hk => absurd rfl hk⟩
              rw [List.getElem?_set_self hjlen]
            · rw [innerSetParent_getElem_ne defs hki, hc] at heq
              have hc1 : c = c1 := by
                have := Option.some.inj heq
                exact Definition.cls.inj this
              subst hc1
              refine ⟨{ c with children := c.children ++ [i] },
                ?_, clsFrame_rfl c, rfl, rfl, ⟨[i], rfl, by simp⟩, fun _ => rfl⟩
              rw [List.getElem?_set_self hjlen]
          · by_cases hki : k = i
            · subst hki
              refine ⟨{ c with parent := some j }, ?_, clsFrame_rfl c, rfl, rfl,
                ⟨[], by simp, by simp⟩, fun hk => absurd rfl hk⟩
              rw [List.getElem?_set_ne (fun hh => hkj hh.symm),
                innerSetParent_getElem_self hc]
              rfl
            · refine ⟨c, ?_, clsFrame_rfl c, rfl, rfl, ⟨[], by simp, by simp⟩, fun _ => rfl⟩
              rw [List.getElem?_set_ne (fun hh => hkj hh.symm),
                innerSetParent_getElem_ne defs hki]
              exact hc
      next f1 heq => exact Except.noConfusion h
      next heq => exact Except.noConfusion h
    · rw [innerStep_eq_nomatch hj hd] at h
      injection h with h
      subst h
      exact InnerFrame_rfl i defs

theorem innerLoop_frame {i : Nat} {pn : String} :
    ∀ (js : List Nat) (defs out : List Definition),
    innerLoop i pn js defs = .ok out → InnerFrame i defs out := by
  intro js
  induction js with
  | nil =>
    intro defs out h
    injection h with h
    subst h
    exact InnerFrame_rfl i defs
  | cons j js ih =>
    intro defs out h
    unfold innerLoop at h
    split at h
    next e heq => exact Except.noConfusion h
    next defs1 heq => exact InnerFrame_trans (innerStep_frame heq) (ih defs1 out h)

theorem innerLoop_nomatch {i : Nat} {pn : String} :
    ∀ (js : List Nat) (defs : List Definition),
    (∀ j ∈ js, ∀ d, defs[j]? = some d → defName d ≠ pn) →
    innerLoop i pn js defs = .ok defs := by
  intro js
  induction js with
  | nil => intro defs _; rfl
  | cons j js ih =>
    intro defs hno
    have hstep : innerStep i j pn defs = .ok defs := by
      cases hj : defs[j]? with
      | none => exact innerStep_eq_none hj
      | some d => exact innerStep_eq_nomatch hj (hno j (by simp) d hj)
    unfold innerLoop
    rw [hstep]
    exact ih defs fun j' hj' d hd => hno j' (by simp [hj']) d hd

theorem innerLoop_fn_err {i : Nat} {pn : String} :
    ∀ (js : List Nat) (defs : List Definition) (j : Nat) (f : ScriptFunction),
    j ∈ js → defs[j]? = some (Definition.fn f) → f.name = pn →
    ∀ out, innerLoop i pn js defs ≠ .ok out := by
  intro js
  induction js with
  | nil =>
    intro defs j f hmem
    exact absurd hmem (List.not_mem_nil j)
  | cons j' js ih =>
    intro defs j f hmem hj hname out
    by_cases hjj : j' = j
    · subst hjj
      have hstep : innerStep i j' pn defs = .error () := by
        rw [innerStep_eq_match hj (by simpa [defName] using hname)]
        unfold innerAppendChild
        have hj1 : (innerSetParent i j' defs)[j']? = some (Definition.fn f) := by
          by_cases hij : j' = i
          · subst hij
            rw [innerSetParent_getElem_self hj]
            rfl
          · rw [innerSetParent_getElem_ne defs hij]
            exact hj
        rw [hj1]
      unfold innerLoop
      rw [hstep]
      exact fun hh => Except.noConfusion hh
    · have hmem' : j ∈ js := by
        rcases List.mem_cons.mp hmem with h | h
        · exact absurd h.symm hjj
        · exact h
      unfold innerLoop
      split
      next e heq => exact fun hh => Except.noConfusion hh
      next defs1 heq =>
        exact ih defs1 j f hmem' ((innerStep_frame heq).2.1 j f hj) hname out

/-- The part of a frame shared by the inner and the outer loop of
`linkParents`: lengths, `ScriptFunction` entries and the `clsFrame` fields of
class entries are preserved. -/
def ListFrame (A B : List Definition) : Prop :=
  B.length = A.length ∧
  (∀ (k : Nat) (f : ScriptFunction),
    A[k]? = some (Definition.fn f) → B[k]? = some (Definition.fn f)) ∧
  (∀ (k : Nat) (c : ScriptClass),
    A[k]? = some (Definition.cls c) →
    ∃ c', B[k]? = some (Definition.cls c') ∧ clsFrame c c')

theorem InnerFrame_listFrame {i : Nat} {A B : List Definition}
    (h : InnerFrame i A B) : ListFrame A B :=
  ⟨h.1, h.2.1, fun k c hc => by
    rcases h.2.2 k c hc with ⟨c', hc', hfr, _⟩
    exact ⟨c', hc', hfr⟩⟩

theorem ListFrame_none {A B : List Definition} (h : ListFrame A B)
    {k : Nat} (hk : A[k]? = none) : B[k]? = none := by
  rw [List.getElem?_eq_none_iff] at hk ⊢
  rw [h.1]
  exact hk

theorem ListFrame_back_fn {A B : List Definition} (h : ListFrame A B)
    {k : Nat} {f : ScriptFunction} (hk : B[k]? = some (Definition.fn f)) :
    A[k]? = some (Definition.fn f) := by
  cases hA : A[k]? with
  | none => rw [ListFrame_none h hA] at hk; exact Option.noConfusion hk
  | some d =>
    cases d with
    | fn g =>
      have := h.2.1 k g hA
      rw [this] at hk
      obtain rfl : g = f := Definition.fn.inj (Option.some.inj hk)
      rfl
    | cls c =>
      rcases h.2.2 k c hA with ⟨c', hc', _⟩
      rw [hc'] at hk
      exact Definition.noConfusion (Option.some.inj hk)

theorem ListFrame_back_cls {A B : List Definition} (h : ListFrame A B)
    {k : Nat} {c' : ScriptClass} (hk : B[k]? = some (Definition.cls c')) :
    ∃ c, A[k]? = some (Definition.cls c) ∧ clsFrame c c' := by
  cases hA : A[k]? with
  | none => rw [ListFrame_none h hA] at hk; exact Option.noConfusion hk
  | some d =>
    cases d with
    | fn g =>
      have := h.2.1 k g hA
      rw [this] at hk
      exact Definition.noConfusion (Option.some.inj hk)
    | cls c =>
      rcases h.2.2 k c hA with ⟨c'', hc'', hfr⟩
      rw [hc''] at hk
      obtain rfl : c'' = c' := Definition.cls.inj (Option.some.inj hk)
      exact ⟨c, rfl, hfr⟩

theorem ListFrame_back_name {A B : List Definition} (h : ListFrame A B)
    {k : Nat} {d' : Definition} (hk : B[k]? = some d') :
    ∃ d, A[k]? = some d ∧ defName d = defName d' := by
  cases d' with
  | fn f => exact ⟨Definition.fn f, ListFrame_back_fn h hk, rfl⟩
  | cls c' =>
    rcases ListFrame_back_cls h hk with ⟨c, hc, hfr⟩
    exact ⟨Definition.cls c, hc, hfr.1.symm⟩

theorem innerLoop_cons {i j : Nat} {pn : String} (js : List Nat) (defs : List Definition) :
    innerLoop i pn (j :: js) defs =
      (match innerStep i j pn defs with
       | .error e => .error e
       | .ok defs1 => innerLoop i pn js defs1) := rfl

theorem innerLoop_append {i : Nat} {pn : String} :
    ∀ (A B : List Nat) (defs : List Definition),
    innerLoop i pn (A ++ B) defs =
      (match innerLoop i pn A defs with
       | .error e => .error e
       | .ok defs1 => innerLoop i pn B defs1) := by
  intro A
  induction A with
  | nil => intro B defs; rfl
  | cons j A ih =>
    intro B defs
    rw [List.cons_append, innerLoop_cons, innerLoop_cons]
    cases innerStep i j pn defs with
    | error e => rfl
    | ok defs1 => exact ih B defs1

theorem innerLoop_unique {i j0 : Nat} {pn : String} {defs : List Definition}
    {JA JB : List Nat} {ci cP : ScriptClass}
    (hJA : ∀ j ∈ JA, j ≠ j0) (hJB : ∀ j ∈ JB, j ≠ j0)
    (huniq : ∀ (k : Nat) (d : Definition), defs[k]? = some d → defName d = pn → k = j0)
    (hi : defs[i]? = some (Definition.cls ci))
    (hj0 : defs[j0]? = some (Definition.cls cP))
    (hname : cP.name = pn) :
    ∃ out, innerLoop i pn (JA ++ j0 :: JB) defs = .ok out ∧
      (∃ ci', out[i]? = some (Definition.cls ci') ∧ ci'.parent = some j0 ∧
        clsFrame ci ci' ∧ ci'.functions = ci.functions ∧ ci'.members = ci.members) ∧
      (∃ cP', out[j0]? = some (Definition.cls cP') ∧ cP'.name = cP.name ∧
        cP'.children = cP.children ++ [i]) := by
  have hA : innerLoop i pn JA defs = .ok defs :=
    innerLoop_nomatch JA defs fun j hj d hd hdn => hJA j hj (huniq j d hd hdn)
  have hilen : i < defs.length := (List.getElem?_eq_some.mp hi).1
  have hstepRes : ∃ out1, innerStep i j0 pn defs = .ok out1 ∧
      (∃ ci', out1[i]? = some (Definition.cls ci') ∧ ci'.parent = some j0 ∧
        clsFrame ci ci' ∧ ci'.functions = ci.functions ∧ ci'.members = ci.members) ∧
      (∃ cP', out1[j0]? = some (Definition.cls cP') ∧ cP'.name = cP.name ∧
        cP'.children = cP.children ++ [i]) := by
    rw [innerStep_eq_match hj0 (by simpa [defName] using hname)]
    by_cases hij : i = j0
    · subst hij
      rw [hi] at hj0
      obtain rfl : ci = cP := Definition.cls.inj (Option.some.inj hj0)
      have hA1 : (innerSetParent i i defs)[i]? =
          some (Definition.cls { ci with parent := some i }) := by
        rw [innerSetParent_getElem_self hi]
        rfl
      unfold innerAppendChild
      rw [hA1]
      have hlen1 : i < (innerSetParent i i defs).length := by
        rw [innerSetParent_length]
        exact hilen
      refine ⟨_, rfl, ?_, ?_⟩
      · exact ⟨{ ci with parent := some i, children := ci.children ++ [i] },
          by rw [List.getElem?_set_self hlen1], rfl, clsFrame_rfl ci, rfl, rfl⟩
      · exact ⟨{ ci with parent := some i, children := ci.children ++ [i] },
          by rw [List.getElem?_set_self hlen1], rfl, rfl⟩
    · have hA1 : (innerSetParent i j0 defs)[j0]? = some (Definition.cls cP) := by
        rw [innerSetParent_getElem_ne defs (fun hh => hij hh.symm)]
        exact hj0
      unfold innerAppendChild
      rw [hA1]
      have hlen1 : j0 < (innerSetParent i j0 defs).length :=
        (List.getElem?_eq_some.mp hA1).1
      refine ⟨_, rfl, ?_, ?_⟩
      · refine ⟨{ ci with parent := some j0 }, ?_, rfl, clsFrame_rfl ci, rfl, rfl⟩
        rw [List.getElem?_set_ne (fun hh => hij hh.symm),
          innerSetParent_getElem_self hi]
        rfl
      · exact ⟨{ cP with children := cP.children ++ [i] },
          by rw [List.getElem?_set_self hlen1], rfl, rfl⟩
  rcases hstepRes with ⟨out1, hstep, hci, hcP⟩
  have hframe : ListFrame defs out1 := InnerFrame_listFrame (innerStep_frame hstep)
  have hB : innerLoop i pn JB out1 = .ok out1 := by
    refine innerLoop_nomatch JB out1 fun j hj d hd hdn => ?_
    rcases ListFrame_back_name hframe hd with ⟨d0, hd0, hdn0⟩
    exact hJB j hj (huniq j d0 hd0 (hdn0.trans hdn))
  refine ⟨out1, ?_, hci, hcP⟩
  rw [innerLoop_append JA (j0 :: JB) defs, hA]
  show innerLoop i pn (j0 :: JB) defs = _
  rw [innerLoop_cons, hstep]
  exact hB

/-- What the outer loop of `linkParents` over the indices in `is` can do to
the state: lengths, `ScriptFunction` entries and the `clsFrame` fields are
untouched, diagnostics only accumulate, `children` only gain indices that
were iterated, and the classes at indices that were not iterated keep their
`functions`, `members` and `parent`. -/
def OuterFrame (is : List Nat) (st out : List Definition × List String) : Prop :=
  out.1.length = st.1.length ∧
  (∃ dt, out.2 = st.2 ++ dt) ∧
  (∀ (k : Nat) (f : ScriptFunction),
    st.1[k]? = some (Definition.fn f) → out.1[k]? = some (Definition.fn f)) ∧
  (∀ (k : Nat) (c : ScriptClass),
    st.1[k]? = some (Definition.cls c) →
    ∃ c', out.1[k]? = some (Definition.cls c') ∧ clsFrame c c' ∧
      (∃ t, c'.children = c.children ++ t ∧ ∀ x ∈ t, x ∈ is) ∧
      (k ∉ is → c'.functions = c.functions ∧ c'.members = c.members ∧
        c'.parent = c.parent))

theorem OuterFrame_rfl (is : List Nat) (st : List Definition × List String) :
    OuterFrame is st st :=
  ⟨rfl, ⟨[], by simp⟩, fun _ _ hf => hf,
   fun _ c hc => ⟨c, hc, clsFrame_rfl c, ⟨[], by simp, by simp⟩, fun _ => ⟨rfl, rfl, rfl⟩⟩⟩

theorem OuterFrame_listFrame {is : List Nat} {st out : List Definition × List String}
    (h : OuterFrame is st out) : ListFrame st.1 out.1 :=
  ⟨h.1, h.2.2.1, fun k c hc => by
    rcases h.2.2.2 k c hc with ⟨c', hc', hfr, _⟩
    exact ⟨c', hc', hfr⟩⟩

theorem OuterFrame_trans {A B : List Nat} {st1 st2 st3 : List Definition × List String}
    (h1 : OuterFrame A st1 st2) (h2 : OuterFrame B st2 st3) :
    OuterFrame (A ++ B) st1 st3 := by
  refine ⟨h2.1.trans h1.1, ?_, fun k f hf => h2.2.2.1 k f (h1.2.2.1 k f hf),
    fun k c hc => ?_⟩
  · rcases h1.2.1 with ⟨dt1, hd1⟩
    rcases h2.2.1 with ⟨dt2, hd2⟩
    exact ⟨dt1 ++ dt2, by rw [hd2, hd1, List.append_assoc]⟩
  · rcases h1.2.2.2 k c hc with ⟨c', hc', hfr, ⟨t, hch, hts⟩, hun⟩
    rcases h2.2.2.2 k c' hc' with ⟨c'', hc'', hfr', ⟨t', hch', hts'⟩, hun'⟩
    refine ⟨c'', hc'', clsFrame_trans hfr hfr', ⟨t ++ t', ?_, ?_⟩, fun hk => ?_⟩
    · rw [hch', hch, List.append_assoc]
    · intro x hx
      rcases List.mem_append.mp hx with hx | hx
      · exact List.mem_append.mpr (Or.inl (hts x hx))
      · exact List.mem_append.mpr (Or.inr (hts' x hx))
    · have hkA : k ∉ A := fun hh => hk (List.mem_append.mpr (Or.inl hh))
      have hkB : k ∉ B := fun hh => hk (List.mem_append.mpr (Or.inr hh))
      rcases hun hkA with ⟨e1, e2, e3⟩
      rcases hun' hkB with ⟨e1', e2', e3'⟩
      exact ⟨e1'.trans e1, e2'.trans e2, e3'.trans e3⟩

theorem outerStep_eq_none {i : Nat} {st : List Definition × List String}
    (hi : st.1[i]? = none) : outerStep i st = .ok st := by
  unfold outerStep
  rw [hi]

theorem outerStep_eq_fn {i : Nat} {st : List Definition × List String}
    {f : ScriptFunction} (hi : st.1[i]? = some (Definition.fn f)) :
    outerStep i st = .ok st := by
  unfold outerStep
  rw [hi]

theorem outerStep_eq_synth {i : Nat} {st : List Definition × List String}
    {c : ScriptClass} (hi : st.1[i]? = some (Definition.cls c))
    (hpn : c.parent_name = none) :
    outerStep i st = .ok (st.1.set i (.cls (synthRoot c)), st.2) := by
  unfold outerStep
  simp only [hi, hpn]

theorem outerStep_eq_pnsome {i : Nat} {st : List Definition × List String}
    {c : ScriptClass} {pn : String} (hi : st.1[i]? = some (Definition.cls c))
    (hpn : c.parent_name = some pn) :
    outerStep i st =
      (match innerLoop i pn (List.range st.1.length) st.1 with
       | .error e => .error e
       | .ok defs1 =>
         (match defs1[i]? with
          | some (.cls c1) =>
            if c1.parent = none then .ok (defs1, st.2 ++ [c1.name])
            else .ok (defs1, st.2)
          | _ => .ok (defs1, st.2))) := by
  unfold outerStep
  simp only [hi, hpn]

theorem OuterFrame_of_inner {i : Nat} {st : List Definition × List String}
    {defs1 : List Definition} {d2 : List String}
    (hinner : InnerFrame i st.1 defs1) (hd : ∃ dt, d2 = st.2 ++ dt) :
    OuterFrame [i] st (defs1, d2) := by
  refine ⟨hinner.1, hd, hinner.2.1, fun k c hc => ?_⟩
  rcases hinner.2.2 k c hc with ⟨c', hc', hfr, hfu, hme, ⟨t, hch, hts⟩, hpa⟩
  refine ⟨c', hc', hfr, ⟨t, hch, fun x hx => by simp [hts x hx]⟩, fun hk => ?_⟩
  have hki : k ≠ i := by simpa using hk
  exact ⟨hfu, hme, hpa hki⟩

theorem outerStep_frame {i : Nat} {st out : List Definition × List String}
    (h : outerStep i st = .ok out) : OuterFrame [i] st out := by
  cases hi : st.1[i]? with
  | none =>
    rw [outerStep_eq_none hi] at h
    injection h with h
    subst h
    exact OuterFrame_rfl [i] st
  | some d =>
    cases d with
    | fn f =>
      rw [outerStep_eq_fn hi] at h
      injection h with h
      subst h
      exact OuterFrame_rfl [i] st
    | cls c =>
      cases hpn : c.parent_name with
      | none =>
        rw [outerStep_eq_synth hi hpn] at h
        injection h with h
        subst h
        have hilen : i < st.1.length := (List.getElem?_eq_some.mp hi).1
        refine ⟨by simp, ⟨[], by simp⟩, fun k f hf => ?_, fun k c0 hc0 => ?_⟩
        · have hki : k ≠ i := by
            intro hh
            subst hh
            rw [hi] at hf
            exact Definition.noConfusion (Option.some.inj hf)
          show (st.1.set i (Definition.cls (synthRoot c)))[k]? = _
          rw [List.getElem?_set_ne (fun hh => hki hh.symm)]
          exact hf
        · by_cases hki : k = i
          · subst hki
            rw [hi] at hc0
            obtain rfl : c = c0 := Definition.cls.inj (Option.some.inj hc0)
            refine ⟨synthRoot c, ?_, clsFrame_rfl c, ⟨[], by simp [synthRoot], by simp⟩,
              fun hk => absurd (by simp) hk⟩
            show (st.1.set k (Definition.cls (synthRoot c)))[k]? = _
            rw [List.getElem?_set_self hilen]
          · refine ⟨c0, ?_, clsFrame_rfl c0, ⟨[], by simp, by simp⟩,
              fun _ => ⟨rfl, rfl, rfl⟩⟩
            show (st.1.set i (Definition.cls (synthRoot c)))[k]? = _
            rw [List.getElem?_set_ne (fun hh => hki hh.symm)]
            exact hc0
      | some pn =>
        rw [outerStep_eq_pnsome hi hpn] at h
        split at h
        next e heq => exact Except.noConfusion h
        next defs1 heq =>
          have hinner := innerLoop_frame (List.range st.1.length) st.1 defs1 heq
          split at h
          next c1 heq1 =>
            split at h
            · injection h with h
              subst h
              exact OuterFrame_of_inner hinner ⟨[c1.name], rfl⟩
            · injection h with h
              subst h
              exact OuterFrame_of_inner hinner ⟨[], by simp⟩
          next heq1 =>
            injection h with h
            subst h
            exact OuterFrame_of_inner hinner ⟨[], by simp⟩

theorem linkParentsLoop_cons {i : Nat} (is : List Nat)
    (st : List Definition × List String) :
    linkParentsLoop (i :: is) st =
      (match outerStep i st with
       | .error e => .error e
       | .ok st1 => linkParentsLoop is st1) := rfl

theorem linkParentsLoop_append :
    ∀ (A B : List Nat) (st : List Definition × List String),
    linkParentsLoop (A ++ B) st =
      (match linkParentsLoop A st with
       | .error e => .error e
       | .ok st1 => linkParentsLoop B st1) := by
  intro A
  induction A with
  | nil => intro B st; rfl
  | cons i A ih =>
    intro B st
    rw [List.cons_append, linkParentsLoop_cons, linkParentsLoop_cons]
    cases outerStep i st with
    | error e => rfl
    | ok st1 => exact ih B st1

theorem linkParentsLoop_frame :
    ∀ (is : List Nat) (st out : List Definition × List String),
    linkParentsLoop is st = .ok out → OuterFrame is st out := by
  intro is
  induction is with
  | nil =>
    intro st out h
    injection h with h
    subst h
    exact OuterFrame_rfl [] st
  | cons i is ih =>
    intro st out h
    rw [linkParentsLoop_cons] at h
    split at h
    next e heq => exact Except.noConfusion h
    next st1 heq =>
      exact OuterFrame_trans (A := [i]) (outerStep_frame heq) (ih st1 out h)

theorem range_split {n m : Nat} (h : m < n) :
    List.range n = List.range m ++ m :: (List.range (n - (m + 1))).map (fun x => m + 1 + x) := by
  have h1 : n = (m + 1) + (n - (m + 1)) := by omega
  calc List.range n = List.range ((m + 1) + (n - (m + 1))) := by rw [← h1]
    _ = List.range (m + 1) ++ (List.range (n - (m + 1))).map (fun x => (m + 1) + x) :=
        List.range_add (m + 1) (n - (m + 1))
    _ = _ := by rw [List.range_succ m, List.append_assoc]; rfl

theorem outerStep_nomatch_diag {i : Nat} {st : List Definition × List String}
    {c : ScriptClass} {pn : String} (hi : st.1[i]? = some (Definition.cls c))
    (hpn : c.parent_name = some pn)
    (hno : ∀ (k : Nat) (d : Definition), st.1[k]? = some d → defName d ≠ pn)
    (hpar : c.parent = none) :
    outerStep i st = .ok (st.1, st.2 ++ [c.name]) := by
  rw [outerStep_eq_pnsome hi hpn]
  rw [innerLoop_nomatch (List.range st.1.length) st.1 (fun j _ d hd => hno j d hd)]
  simp only [hi, hpar, if_pos]

theorem outerStep_unique {i j0 : Nat} {st : List Definition × List String}
    {ci cP : ScriptClass} {pn : String}
    (hi : st.1[i]? = some (Definition.cls ci))
    (hpn : ci.parent_name = some pn)
    (hj0 : st.1[j0]? = some (Definition.cls cP))
    (hname : cP.name = pn)
    (huniq : ∀ (k : Nat) (d : Definition), st.1[k]? = some d → defName d = pn → k = j0) :
    ∃ out1, outerStep i st = .ok (out1, st.2) ∧
      (∃ ci', out1[i]? = some (Definition.cls ci') ∧ ci'.parent = some j0 ∧
        clsFrame ci ci' ∧ ci'.functions = ci.functions ∧ ci'.members = ci.members) ∧
      (∃ cP', out1[j0]? = some (Definition.cls cP') ∧ cP'.name = cP.name ∧
        cP'.children = cP.children ++ [i]) := by
  have hj0lt : j0 < st.1.length := (List.getElem?_eq_some.mp hj0).1
  have hsplit := range_split hj0lt
  have hJA : ∀ j ∈ List.range j0, j ≠ j0 := fun j hj => Nat.ne_of_lt (List.mem_range.mp hj)
  have hJB : ∀ j ∈ (List.range (st.1.length - (j0 + 1))).map (fun x => j0 + 1 + x),
      j ≠ j0 := by
    intro j hj
    rcases List.mem_map.mp hj with ⟨a, _, rfl⟩
    omega
  rcases innerLoop_unique hJA hJB huniq hi hj0 hname with ⟨out1, hloop, hci, hcP⟩
  rcases hci with ⟨ci', hci', hpar, hfr, hfu, hme⟩
  refine ⟨out1, ?_, ⟨ci', hci', hpar, hfr, hfu, hme⟩, hcP⟩
  rw [outerStep_eq_pnsome hi hpn, hsplit, hloop]
  simp only [hci', hpar]
  rfl

/-- In the `parent_name is not None` branch, `linkParents` never touches any
class's `functions` or `members`. -/
theorem outerStep_pnsome_fm {i : Nat} {st out : List Definition × List String}
    {c : ScriptClass} {pn : String}
    (hi : st.1[i]? = some (Definition.cls c)) (hpn : c.parent_name = some pn)
    (h : outerStep i st = .ok out) :
    ∀ (k : Nat) (c0 : ScriptClass), st.1[k]? = some (Definition.cls c0) →
    ∃ c0', out.1[k]? = some (Definition.cls c0') ∧ clsFrame c0 c0' ∧
      c0'.functions = c0.functions ∧ c0'.members = c0.members := by
  rw [outerStep_eq_pnsome hi hpn] at h
  split at h
  next e heq => exact Except.noConfusion h
  next defs1 heq =>
    have hinner := innerLoop_frame (List.range st.1.length) st.1 defs1 heq
    have hout1 : out.1 = defs1 := by
      split at h
      next c1 heq1 =>
        split at h
        · injection h with h
          rw [← h]
        · injection h with h
          rw [← h]
      next heq1 =>
        injection h with h
        rw [← h]
    rw [hout1]
    intro k c0 hc0
    rcases hinner.2.2 k c0 hc0 with ⟨c0', hc0', hfr, hfu, hme, _⟩
    exact ⟨c0', hc0', hfr, hfu, hme⟩

theorem outerStep_err {i j : Nat} {st : List Definition × List String}
    {c : ScriptClass} {f : ScriptFunction} {pn : String}
    (hi : st.1[i]? = some (Definition.cls c)) (hpn : c.parent_name = some pn)
    (hj : st.1[j]? = some (Definition.fn f)) (hname : f.name = pn) :
    ∀ out, outerStep i st ≠ .ok out := by
  intro out h
  rw [outerStep_eq_pnsome hi hpn] at h
  have hjlt : j < st.1.length := (List.getElem?_eq_some.mp hj).1
  have hjmem : j ∈ List.range st.1.length := List.mem_range.mpr hjlt
  split at h
  next e heq => exact Except.noConfusion h
  next defs1 heq =>
    exact innerLoop_fn_err (List.range st.1.length) st.1 j f hjmem hj hname defs1 heq

theorem linkParentsLoop_err :
    ∀ (is : List Nat) (st : List Definition × List String) (i : Nat),
    i ∈ is →
    (∃ (c : ScriptClass) (pn : String) (j : Nat) (f : ScriptFunction),
      st.1[i]? = some (Definition.cls c) ∧ c.parent_name = some pn ∧
      st.1[j]? = some (Definition.fn f) ∧ f.name = pn) →
    ∀ out, linkParentsLoop is st ≠ .ok out := by
  intro is
  induction is with
  | nil =>
    intro st i hmem
    exact absurd hmem (List.not_mem_nil i)
  | cons i0 rest ih =>
    intro st i hmem hbad out h
    rw [linkParentsLoop_cons] at h
    rcases hbad with ⟨c, pn, j, f, hi, hpn, hj, hname⟩
    split at h
    next e heq => exact Except.noConfusion h
    next st1 heq =>
      by_cases hii : i0 = i
      · subst hii
        exact outerStep_err hi hpn hj hname st1 heq
      · have hmem' : i ∈ rest := by
          rcases List.mem_cons.mp hmem with h' | h'
          · exact absurd h'.symm hii
          · exact h'
        have hof := outerStep_frame heq
        rcases hof.2.2.2 i c hi with ⟨c', hc', hfr, _, _⟩
        have hj' := hof.2.2.1 j f hj
        exact ih st1 i hmem' ⟨c', pn, j, f, hc', hfr.2.1.trans hpn, hj', hname⟩ out h

/-- No top-level free function shares its name with any referenced parent
name: the precondition under which parent linking is exception-free. -/
def NoClash (defs : List Definition) : Prop :=
  ∀ (i : Nat) (c : ScriptClass) (pn : String) (j : Nat) (f : ScriptFunction),
    defs[i]? = some (Definition.cls c) → c.parent_name = some pn →
    defs[j]? = some (Definition.fn f) → f.name ≠ pn

theorem NoClash_of_listFrame {A B : List Definition} (h : ListFrame A B)
    (hnc : NoClash A) : NoClash B := by
  intro i c pn j f hi hpn hj
  rcases ListFrame_back_cls h hi with ⟨c0, hc0, hfr⟩
  have hj0 := ListFrame_back_fn h hj
  exact hnc i c0 pn j f hc0 (hfr.2.1.symm.trans hpn) hj0

theorem innerLoop_ok {i : Nat} {pn : String} :
    ∀ (js : List Nat) (defs : List Definition),
    (∀ (j : Nat) (f : ScriptFunction), defs[j]? = some (Definition.fn f) → f.name ≠ pn) →
    ∃ out, innerLoop i pn js defs = .ok out := by
  intro js
  induction js with
  | nil =>
    intro defs _
    exact ⟨defs, rfl⟩
  | cons j js ih =>
    intro defs hno
    have hstep : ∃ d1, innerStep i j pn defs = .ok d1 := by
      cases hj : defs[j]? with
      | none => exact ⟨defs, innerStep_eq_none hj⟩
      | some d =>
        by_cases hd : defName d = pn
        · cases d with
          | fn f => exact absurd (by simpa [defName] using hd) (hno j f hj)
          | cls c =>
            rw [innerStep_eq_match hj hd]
            unfold innerAppendChild
            by_cases hij : j = i
            · subst hij
              rw [innerSetParent_getElem_self hj]
              exact ⟨_, rfl⟩
            · rw [innerSetParent_getElem_ne defs hij, hj]
              exact ⟨_, rfl⟩
        · exact ⟨defs, innerStep_eq_nomatch hj hd⟩
    rcases hstep with ⟨d1, hstep⟩
    rw [innerLoop_cons, hstep]
    have hfr := InnerFrame_listFrame (innerStep_frame hstep)
    exact ih d1 (fun j' f hf => hno j' f (ListFrame_back_fn hfr hf))

theorem outerStep_ok {i : Nat} {st : List Definition × List String}
    (hnc : NoClash st.1) : ∃ out, outerStep i st = .ok out := by
  cases hi : st.1[i]? with
  | none => exact ⟨st, outerStep_eq_none hi⟩
  | some d =>
    cases d with
    | fn f => exact ⟨st, outerStep_eq_fn hi⟩
    | cls c =>
      cases hpn : c.parent_name with
      | none => exact ⟨_, outerStep_eq_synth hi hpn⟩
      | some pn =>
        have hno : ∀ (j : Nat) (f : ScriptFunction),
            st.1[j]? = some (Definition.fn f) → f.name ≠ pn :=
          fun j f hj => hnc i c pn j f hi hpn hj
        rcases innerLoop_ok (List.range st.1.length) st.1 hno with ⟨defs1, hloop⟩
        have hfin : ∃ out, (match defs1[i]? with
            | some (.cls c1) =>
              if c1.parent = none then Except.ok (defs1, st.2 ++ [c1.name])
              else Except.ok (defs1, st.2)
            | _ => Except.ok (defs1, st.2)) =
            (Except.ok out : Except Unit (List Definition × List String)) := by
          cases hdi : defs1[i]? with
          | none => exact ⟨(defs1, st.2), rfl⟩
          | some d1 =>
            cases d1 with
            | fn f1 => exact ⟨(defs1, st.2), rfl⟩
            | cls c1 =>
              by_cases hp : c1.parent = none
              · exact ⟨(defs1, st.2 ++ [c1.name]), by simp [hp]⟩
              · exact ⟨(defs1, st.2), by simp [hp]⟩
        rcases hfin with ⟨out, hout⟩
        refine ⟨out, ?_⟩
        rw [outerStep_eq_pnsome hi hpn, hloop]
        exact hout

theorem linkParentsLoop_ok :
    ∀ (is : List Nat) (st : List Definition × List String),
    NoClash st.1 → ∃ out, linkParentsLoop is st = .ok out := by
  intro is
  induction is with
  | nil =>
    intro st _
    exact ⟨st, rfl⟩
  | cons i rest ih =>
    intro st hnc
    rcases outerStep_ok (i := i) hnc with ⟨st1, hstep⟩
    rw [linkParentsLoop_cons, hstep]
    exact ih st1 (NoClash_of_listFrame (OuterFrame_listFrame (outerStep_frame hstep)) hnc)

theorem not_mem_map_range {i n : Nat} : i ∉ (List.range n).map (fun x => i + 1 + x) := by
  intro h
  rcases List.mem_map.mp h with ⟨a, _, ha⟩
  omega

theorem linkParents_split {defs : List Definition} {i : Nat} (h : i < defs.length) :
    linkParents defs =
      (match linkParentsLoop (List.range i) (defs, []) with
       | .error e => .error e
       | .ok st1 =>
         (match outerStep i st1 with
          | .error e => .error e
          | .ok st2 =>
            linkParentsLoop ((List.range (defs.length - (i + 1))).map
              (fun x => i + 1 + x)) st2)) := by
  unfold linkParents
  rw [range_split h, linkParentsLoop_append]
  cases linkParentsLoop (List.range i) (defs, []) with
  | error e => rfl
  | ok st1 => exact linkParentsLoop_cons _ st1

theorem clsFrame_synthRoot (c : ScriptClass) : clsFrame c (synthRoot c) :=
  ⟨rfl, rfl, rfl, rfl, rfl⟩

/-- The effect of `linkParents` on a class with no `parent_name`: exactly the
three synthesized entries are appended, and nothing else of the class except
possibly its `children` changes. -/
theorem linkParents_root_effect {defs out : List Definition} {dg : List String}
    {i : Nat} {c : ScriptClass}
    (h : linkParents defs = .ok (out, dg))
    (hi : defs[i]? = some (Definition.cls c))
    (hpn : c.parent_name = none) :
    ∃ c', out[i]? = some (Definition.cls c') ∧ clsFrame c c' ∧
      c'.functions = c.functions ++ [isValidFn, destroyFn] ∧
      c'.members = c.members ++ [typeNameMember] ∧
      c'.parent = c.parent := by
  have hilt : i < defs.length := (List.getElem?_eq_some.mp hi).1
  rw [linkParents_split hilt] at h
  split at h
  next e heqA => exact Except.noConfusion h
  next st1 heqA =>
    split at h
    next e heqS => exact Except.noConfusion h
    next st2 heqS =>
      have hfrA := linkParentsLoop_frame _ _ _ heqA
      rcases hfrA.2.2.2 i c hi with ⟨cA, hcA, hfrc, ⟨tA, hchA, htsA⟩, hunA⟩
      have hinotA : i ∉ List.range i := by simp
      rcases hunA hinotA with ⟨hfuA, hmeA, hpaA⟩
      have hpnA : cA.parent_name = none := hfrc.2.1.trans hpn
      rw [outerStep_eq_synth hcA hpnA] at heqS
      injection heqS with heqS
      subst heqS
      have hfrB := linkParentsLoop_frame _ _ _ h
      have hiltA : i < st1.1.length := by
        rw [hfrA.1]
        exact hilt
      have hset : (st1.1.set i (Definition.cls (synthRoot cA)))[i]? =
          some (Definition.cls (synthRoot cA)) := List.getElem?_set_self hiltA
      rcases hfrB.2.2.2 i (synthRoot cA) hset with ⟨c', hc', hfrc', _, hunB⟩
      rcases hunB not_mem_map_range with ⟨hfuB, hmeB, hpaB⟩
      refine ⟨c', hc', ?_, ?_, ?_, ?_⟩
      · exact clsFrame_trans hfrc (clsFrame_trans (clsFrame_synthRoot cA) hfrc')
      · rw [hfuB]
        show cA.functions ++ [isValidFn, destroyFn] = _
        rw [hfuA]
      · rw [hmeB]
        show cA.members ++ [typeNameMember] = _
        rw [hmeA]
      · rw [hpaB]
        show cA.parent = c.parent
        rw [hpaA]

theorem linkParents_ok_nofn {defs out : List Definition} {dg : List String}
    {i : Nat} {c : ScriptClass} {pn : String}
    (h : linkParents defs = .ok (out, dg))
    (hi : defs[i]? = some (Definition.cls c))
    (hpn : c.parent_name = some pn) :
    ∀ (k : Nat) (f : ScriptFunction), defs[k]? = some (Definition.fn f) → f.name ≠ pn := by
  intro k f hk hname
  exact linkParentsLoop_err (List.range defs.length) (defs, []) i
    (List.mem_range.mpr (List.getElem?_eq_some.mp hi).1)
    ⟨c, pn, k, f, hi, hpn, hk, hname⟩ (out, dg) h

/-- C2 (amended): for every ScriptClass whose declared parent-name is absent
(None), after linkParents its functions list equals its pre-link list with
exactly the two synthesized entries isValid and destroy appended (each with
empty-string parameters and a fixed description) and its members list equals
its pre-link list with exactly the synthesized typeName member appended — so
it holds exactly one entry of each name precisely when it declared none
itself; classes that do declare a parent-name receive none of these. -/
theorem c2_root_synthesis {defs out : List Definition} {dg : List String}
    {i : Nat} {c : ScriptClass}
    (h : linkParents defs = .ok (out, dg))
    (hi : defs[i]? = some (Definition.cls c)) :
    (c.parent_name = none →
      ∃ c', out[i]? = some (Definition.cls c') ∧
        c'.functions = c.functions ++ [isValidFn, destroyFn] ∧
        c'.members = c.members ++ [typeNameMember]) ∧
    (∀ pn : String, c.parent_name = some pn →
      ∃ c', out[i]? = some (Definition.cls c') ∧
        c'.functions = c.functions ∧ c'.members = c.members) := by
  constructor
  · intro hpn
    rcases linkParents_root_effect h hi hpn with ⟨c', hc', _, hfu, hme, _⟩
    exact ⟨c', hc', hfu, hme⟩
  · intro pn hpn
    have hilt : i < defs.length := (List.getElem?_eq_some.mp hi).1
    rw [linkParents_split hilt] at h
    split at h
    next e heqA => exact Except.noConfusion h
    next st1 heqA =>
      split at h
      next e heqS => exact Except.noConfusion h
      next st2 heqS =>
        have hfrA := linkParentsLoop_frame _ _ _ heqA
        rcases hfrA.2.2.2 i c hi with ⟨cA, hcA, hfrc, _, hunA⟩
        have hinotA : i ∉ List.range i := by simp
        rcases hunA hinotA with ⟨hfuA, hmeA, _⟩
        have hpnA : cA.parent_name = some pn := hfrc.2.1.trans hpn
        rcases outerStep_pnsome_fm hcA hpnA heqS i cA hcA with ⟨cS, hcS, _, hfuS, hmeS⟩
        have hfrB := linkParentsLoop_frame _ _ _ h
        rcases hfrB.2.2.2 i cS hcS with ⟨c', hc', _, _, hunB⟩
        rcases hunB not_mem_map_range with ⟨hfuB, hmeB, _⟩
        exact ⟨c', hc', by rw [hfuB, hfuS, hfuA], by rw [hmeB, hmeS, hmeA]⟩

/-- The root class of the C2 witness model. -/
def c2root : ScriptClass := { name := "Root" }

/-- The parented class of the C2 witness model. -/
def c2kid : ScriptClass := { name := "Kid", parent_name := some "Root" }

/-- The C2 witness model: one root class and one subclass of it. -/
def c2w : List Definition := [Definition.cls c2root, Definition.cls c2kid]

/-- The linked C2 witness model. -/
def c2wOut : List Definition :=
  [Definition.cls
    { name := "Root"
      children := [1]
      functions := [isValidFn, destroyFn]
      members := [typeNameMember] },
   Definition.cls
    { name := "Kid"
      parent_name := some "Root"
      parent := some 0 }]

/-- C2 (witness): the amended theorem applied to the concrete two-class
model, at the root class (first conjunct) and at the parented class (second
conjunct). -/
theorem c2_witness :
    (∃ c', c2wOut[0]? = some (Definition.cls c') ∧
      c'.functions = c2root.functions ++ [isValidFn, destroyFn] ∧
      c'.members = c2root.members ++ [typeNameMember]) ∧
    (∃ c', c2wOut[1]? = some (Definition.cls c') ∧
      c'.functions = c2kid.functions ∧ c'.members = c2kid.members) := by
  have hlink : linkParents c2w = .ok (c2wOut, []) := by decide
  exact ⟨(c2_root_synthesis hlink rfl).1 rfl,
    (c2_root_synthesis hlink rfl).2 "Root" rfl⟩

/-- C3 (amended): re-running linkParents on an already-linked model is NOT
idempotent: every root class (no parent-name) receives a second copy of the
synthesized isValid and destroy functions and a second typeName member, so
the model changes. -/
theorem c3_relink_duplicates {defs out1 out2 : List Definition}
    {d1 d2 : List String} {i : Nat} {c : ScriptClass}
    (h1 : linkParents defs = .ok (out1, d1))
    (h2 : linkParents out1 = .ok (out2, d2))
    (hi : defs[i]? = some (Definition.cls c))
    (hpn : c.parent_name = none) :
    ∃ c2, out2[i]? = some (Definition.cls c2) ∧
      c2.functions = c.functions ++ [isValidFn, destroyFn] ++ [isValidFn, destroyFn] ∧
      c2.members = c.members ++ [typeNameMember] ++ [typeNameMember] := by
  rcases linkParents_root_effect h1 hi hpn with ⟨c1, hc1, hfr1, hfu1, hme1, _⟩
  have hpn1 : c1.parent_name = none := hfr1.2.1.trans hpn
  rcases linkParents_root_effect h2 hc1 hpn1 with ⟨c2, hc2, _, hfu2, hme2, _⟩
  exact ⟨c2, hc2, by rw [hfu2, hfu1], by rw [hme2, hme1]⟩

/-- The one-root-class model of the C3 counterexample. -/
def c3ex : List Definition := [Definition.cls { name := "R" }]

/-- The C3 model after one run of linkParents. -/
def c3ex1 : List Definition :=
  [Definition.cls
    { name := "R"
      functions := [isValidFn, destroyFn]
      members := [typeNameMember] }]

/-- The C3 model after a second run of linkParents. -/
def c3ex2 : List Definition :=
  [Definition.cls
    { name := "R"
      functions := [isValidFn, destroyFn, isValidFn, destroyFn]
      members := [typeNameMember, typeNameMember] }]

/-- The functions of the class at index `i`. -/
def funcsAt (defs : List Definition) (i : Nat) : List ScriptFunction :=
  match defs[i]? with
  | some (.cls c) => c.functions
  | _ => []

/-- C3 (counterexample): running linkParents a second time on the linked
one-root-class model does NOT leave it unchanged — the root class ends with
two isValid entries (and, symmetrically, two destroy and two typeName
entries), so linking is not idempotent. -/
theorem c3_counterexample :
    linkParents c3ex = .ok (c3ex1, []) ∧
    linkParents c3ex1 = .ok (c3ex2, []) ∧
    (funcsAt c3ex1 0).countP (fun f => f.name == "isValid") = 1 ∧
    (funcsAt c3ex2 0).countP (fun f => f.name == "isValid") = 2 ∧
    c3ex2 ≠ c3ex1 := by
  refine ⟨by decide, by decide, by decide, by decide, by decide⟩

/-- C3 (witness): the amended theorem applied to the concrete
one-root-class model. -/
theorem c3_witness :
    ∃ c2, c3ex2[0]? = some (Definition.cls c2) ∧
      c2.functions = [] ++ [isValidFn, destroyFn] ++ [isValidFn, destroyFn] ∧
      c2.members = [] ++ [typeNameMember] ++ [typeNameMember] :=
  @c3_relink_duplicates c3ex c3ex1 c3ex2 [] [] 0 { name := "R" }
    (by decide) (by decide) rfl rfl

/-- C4: a class declared with the NO_CREATE subclass macro (create = false,
parent_name recorded) whose parent name matches no declared class keeps,
after linkParents, create = false and parent = None, a "Parent not found"
diagnostic carrying its name is emitted, and none of the three synthesized
root entries are added to it (its functions and members are unchanged). -/
theorem c4_unresolved_parent {defs out : List Definition} {dg : List String}
    {i : Nat} {c : ScriptClass} {pn : String}
    (h : linkParents defs = .ok (out, dg))
    (hi : defs[i]? = some (Definition.cls c))
    (hpn : c.parent_name = some pn)
    (hcreate : c.create = false)
    (hpar : c.parent = none)
    (hnomatch : ∀ (k : Nat) (c0 : ScriptClass),
      defs[k]? = some (Definition.cls c0) → c0.name ≠ pn) :
    ∃ c', out[i]? = some (Definition.cls c') ∧ c'.create = false ∧
      c'.parent = none ∧ c'.functions = c.functions ∧ c'.members = c.members ∧
      c.name ∈ dg := by
  have hnofn := linkParents_ok_nofn h hi hpn
  have hno : ∀ (k : Nat) (d : Definition), defs[k]? = some d → defName d ≠ pn := by
    intro k d hd
    cases d with
    | cls c0 => exact hnomatch k c0 hd
    | fn f => exact hnofn k f hd
  have hilt : i < defs.length := (List.getElem?_eq_some.mp hi).1
  rw [linkParents_split hilt] at h
  split at h
  next e heqA => exact Except.noConfusion h
  next st1 heqA =>
    split at h
    next e heqS => exact Except.noConfusion h
    next st2 heqS =>
      have hfrA := linkParentsLoop_frame _ _ _ heqA
      rcases hfrA.2.2.2 i c hi with ⟨cA, hcA, hfrc, _, hunA⟩
      have hinotA : i ∉ List.range i := by simp
      rcases hunA hinotA with ⟨hfuA, hmeA, hpaA⟩
      have hpnA : cA.parent_name = some pn := hfrc.2.1.trans hpn
      have hparA : cA.parent = none := hpaA.trans hpar
      have hnoA : ∀ (k : Nat) (d : Definition), st1.1[k]? = some d → defName d ≠ pn := by
        intro k d hd hdn
        rcases ListFrame_back_name (OuterFrame_listFrame hfrA) hd with ⟨d0, hd0, hdn0⟩
        exact hno k d0 hd0 (hdn0.trans hdn)
      rw [outerStep_nomatch_diag hcA hpnA hnoA hparA] at heqS
      injection heqS with heqS
      subst heqS
      have hfrB := linkParentsLoop_frame _ _ _ h
      rcases hfrB.2.2.2 i cA hcA with ⟨c', hc', hfrc', _, hunB⟩
      rcases hunB not_mem_map_range with ⟨hfuB, hmeB, hpaB⟩
      rcases hfrB.2.1 with ⟨dt, hdt⟩
      refine ⟨c', hc', ?_, ?_, ?_, ?_, ?_⟩
      · rw [hfrc'.2.2.1, hfrc.2.2.1]
        exact hcreate
      · rw [hpaB]
        exact hparA
      · rw [hfuB]
        exact hfuA
      · rw [hmeB]
        exact hmeA
      · have hdt2 : dg = (st1.2 ++ [cA.name]) ++ dt := hdt
        rw [hdt2, hfrc.1]
        simp

/-- The class of the C4 witness model: a NO_CREATE subclass whose parent is
never declared. -/
def c4c : ScriptClass := { name := "Child", parent_name := some "Parent", create := false }

/-- The C4 witness model. -/
def c4ex : List Definition := [Definition.cls c4c]

/-- C4 (witness): the theorem applied to the concrete undeclared-parent
model; `linkParents` leaves the class untouched and emits the diagnostic. -/
theorem c4_witness :
    ∃ c', c4ex[0]? = some (Definition.cls c') ∧ c'.create = false ∧
      c'.parent = none ∧ c'.functions = c4c.functions ∧ c'.members = c4c.members ∧
      c4c.name ∈ ["Child"] := by
  have hlink : linkParents c4ex = .ok (c4ex, ["Child"]) := by decide
  refine c4_unresolved_parent hlink rfl rfl rfl rfl ?_
  intro k c0 hk hn
  rcases k with _ | k
  · rw [show c4ex[0]? = some (Definition.cls c4c) from rfl] at hk
    obtain rfl : c4c = c0 := Definition.cls.inj (Option.some.inj hk)
    exact absurd hn (by decide)
  · rw [show c4ex[k + 1]? = none from rfl] at hk
    exact Option.noConfusion hk

/-- C5: for every ScriptClass C whose declared parent-name equals the name
of exactly one declared ScriptClass P (with pre-link empty children), after
linkParents C.parent references P and P.children contains C exactly once. -/
theorem c5_resolved_parent {defs out : List Definition} {dg : List String}
    {i j0 : Nat} {c P : ScriptClass} {pn : String}
    (h : linkParents defs = .ok (out, dg))
    (hi : defs[i]? = some (Definition.cls c))
    (hpn : c.parent_name = some pn)
    (hj0 : defs[j0]? = some (Definition.cls P))
    (hPname : P.name = pn)
    (huniq : ∀ (k : Nat) (c0 : ScriptClass),
      defs[k]? = some (Definition.cls c0) → c0.name = pn → k = j0)
    (hchild : P.children = []) :
    ∃ c' P', out[i]? = some (Definition.cls c') ∧ c'.parent = some j0 ∧
      out[j0]? = some (Definition.cls P') ∧ P'.name = pn ∧
      P'.children.count i = 1 := by
  have hnofn := linkParents_ok_nofn h hi hpn
  have huniqd : ∀ (k : Nat) (d : Definition), defs[k]? = some d → defName d = pn → k = j0 := by
    intro k d hd hdn
    cases d with
    | cls c0 => exact huniq k c0 hd hdn
    | fn f => exact absurd hdn (hnofn k f hd)
  have hilt : i < defs.length := (List.getElem?_eq_some.mp hi).1
  rw [linkParents_split hilt] at h
  split at h
  next e heqA => exact Except.noConfusion h
  next st1 heqA =>
    split at h
    next e heqS => exact Except.noConfusion h
    next st2 heqS =>
      have hfrA := linkParentsLoop_frame _ _ _ heqA
      rcases hfrA.2.2.2 i c hi with ⟨cA, hcA, hfrc, _, _⟩
      have hpnA : cA.parent_name = some pn := hfrc.2.1.trans hpn
      rcases hfrA.2.2.2 j0 P hj0 with ⟨PA, hPA, hfrP, ⟨tA, hchA, htsA⟩, _⟩
      have hPnameA : PA.name = pn := hfrP.1.trans hPname
      have huniqA : ∀ (k : Nat) (d : Definition), st1.1[k]? = some d → defName d = pn → k = j0 := by
        intro k d hd hdn
        rcases ListFrame_back_name (OuterFrame_listFrame hfrA) hd with ⟨d0, hd0, hdn0⟩
        exact huniqd k d0 hd0 (hdn0.trans hdn)
      rcases outerStep_unique hcA hpnA hPA hPnameA huniqA with
        ⟨mid, hstep, ⟨ci', hci', hpari, _, _, _⟩, ⟨cP', hcP', hPn', hchP'⟩⟩
      rw [hstep] at heqS
      injection heqS with heqS
      subst heqS
      have hfrB := linkParentsLoop_frame _ _ _ h
      rcases hfrB.2.2.2 i ci' hci' with ⟨c', hc', _, _, hunB⟩
      rcases hunB not_mem_map_range with ⟨_, _, hpaB⟩
      rcases hfrB.2.2.2 j0 cP' hcP' with ⟨P', hP', hfrP', ⟨tB, hchB, htsB⟩, _⟩
      refine ⟨c', P', hc', ?_, hP', ?_, ?_⟩
      · rw [hpaB]
        exact hpari
      · exact hfrP'.1.trans (hPn'.trans hPnameA)
      · rw [hchB, hchP', hchA, hchild]
        have htA0 : tA.count i = 0 := by
          rw [List.count_eq_zero]
          intro hmem
          have := htsA i hmem
          simp at this
        have htB0 : tB.count i = 0 := by
          rw [List.count_eq_zero]
          intro hmem
          exact not_mem_map_range (htsB i hmem)
        simp [List.count_append, htA0, htB0]

/-- The subclass of the C5 witness model. -/
def c5child : ScriptClass := { name := "Child", parent_name := some "P" }

/-- The parent class of the C5 witness model. -/
def c5parent : ScriptClass := { name := "P" }

/-- The C5 witness model. -/
def c5ex : List Definition := [Definition.cls c5child, Definition.cls c5parent]

/-- The linked C5 witness model. -/
def c5exOut : List Definition :=
  [Definition.cls
    { name := "Child"
      parent_name := some "P"
      parent := some 1 },
   Definition.cls
    { name := "P"
      children := [0]
      functions := [isValidFn, destroyFn]
      members := [typeNameMember] }]

/-- C5 (witness): the theorem applied to the concrete two-class model. -/
theorem c5_witness :
    ∃ c' P', c5exOut[0]? = some (Definition.cls c') ∧ c'.parent = some 1 ∧
      c5exOut[1]? = some (Definition.cls P') ∧ P'.name = "P" ∧
      P'.children.count 0 = 1 := by
  have hlink : linkParents c5ex = .ok (c5exOut, []) := by decide
  refine c5_resolved_parent hlink rfl rfl rfl rfl ?_ rfl
  intro k c0 hk hn
  rcases k with _ | _ | k
  · rw [show c5ex[0]? = some (Definition.cls c5child) from rfl] at hk
    obtain rfl : c5child = c0 := Definition.cls.inj (Option.some.inj hk)
    exact absurd hn (by decide)
  · rfl
  · rw [show c5ex[k + 2]? = none from rfl] at hk
    exact Option.noConfusion hk

/-- C10: parent lookup in linkParents scans the whole Declaration List, so
if a free ScriptFunction shares its name with some class's declared
parent-name, the pass raises (the append to the function's non-existent
children fails) and linkParents returns an error; conversely, when no free
function shares a name with any referenced parent-name, linkParents is
exception-free. -/
theorem c10_function_parent_clash :
    (∀ (defs : List Definition) (i : Nat) (c : ScriptClass) (pn : String)
      (j : Nat) (f : ScriptFunction),
      defs[i]? = some (Definition.cls c) → c.parent_name = some pn →
      defs[j]? = some (Definition.fn f) → f.name = pn →
      linkParents defs = .error ()) ∧
    (∀ defs : List Definition, NoClash defs → ∃ res, linkParents defs = .ok res) := by
  constructor
  · intro defs i c pn j f hi hpn hj hname
    have hne := linkParentsLoop_err (List.range defs.length) (defs, []) i
      (List.mem_range.mpr (List.getElem?_eq_some.mp hi).1) ⟨c, pn, j, f, hi, hpn, hj, hname⟩
    cases hres : linkParents defs with
    | ok res => exact absurd hres (hne res)
    | error e => rfl
  · intro defs hnc
    exact linkParentsLoop_ok (List.range defs.length) (defs, []) hnc

/-- The clashing model for the C10 witness: a class whose parent name is the
name of a free script function. -/
def c10bad : List Definition :=
  [Definition.cls { name := "C", parent_name := some "g" },
   Definition.fn { name := "g" }]

/-- A clash-free model for the C10 witness. -/
def c10good : List Definition := [Definition.cls { name := "R" }]

/-- C10 (witness): the theorem applied to the concrete clashing model (the
pass errors) and to a clash-free model (the pass succeeds). -/
theorem c10_witness :
    linkParents c10bad = .error () ∧ ∃ res, linkParents c10good = .ok res := by
  constructor
  · exact c10_function_parent_clash.1 c10bad 0
      { name := "C", parent_name := some "g" } "g" 1 { name := "g" } rfl rfl rfl rfl
  · refine c10_function_parent_clash.2 c10good ?_
    intro i c pn j f hi hpn hj
    rcases j with _ | j
    · rw [show c10good[0]? = some (Definition.cls { name := "R" }) from rfl] at hj
      exact Definition.noConfusion (Option.some.inj hj)
    · rw [show c10good[j + 1]? = none from rfl] at hj
      exact Option.noConfusion hj

/-! `DocumentationGenerator.readScriptDefinitions`. A scanned source line is
embedded as the tuple of the match results of the regular expressions the
script applies to it, one optional field per regex in code order: the
leading-`#` test, `///(.*)`, `REGISTER_SCRIPT_CLASS(...)`,
`REGISTER_SCRIPT_CLASS_NO_CREATE(...)`, `REGISTER_SCRIPT_SUBCLASS(...)`,
`REGISTER_SCRIPT_SUBCLASS_NO_CREATE(...)`,
`REGISTER_SCRIPT_CLASS_FUNCTION(...)`, `REGISTER_SCRIPT_CLASS_CALLBACK(...)`
and `REGISTER_SCRIPT_FUNCTION(...)`. The Python `current_class` variable
aliases the last class object appended to `_definitions`, which is mutated
in place until the next class or free-function macro; this is embedded by
keeping the current class out of the list until it is flushed by the next
class macro, free-function macro, or the end of the file. -/

/-- The regex match results of one line processed by
`readScriptDefinitions`. -/
structure SLine where
  startsHash : Bool := false
  doc : Option String := none
  regClass : Option String := none
  regClassNoCreate : Option String := none
  regSubclass : Option (String × String) := none
  regSubclassNoCreate : Option (String × String) := none
  regClassFunction : Option (String × String) := none
  regClassCallback : Option (String × String) := none
  regFunction : Option String := none
deriving DecidableEq

/-- The per-file scanning state of `readScriptDefinitions`: the pending
description buffer, the flushed definitions, and the current class. -/
structure SDState where
  description : String
  definitions : List Definition
  current_class : Option ScriptClass
deriving DecidableEq

/-- A fresh `ScriptClass(name)` with the fields the class macros set. -/
def mkClass (name : String) (create : Bool) (parent_name : Option String)
    (description : String) : ScriptClass :=
  { name := name, parent_name := parent_name, create := create, description := description }

/-- Append the pending current class (if any) to the definitions, embedding
that the Python object was already in `_definitions` and stops being mutated
from here on. -/
def flushCurrent (st : SDState) : SDState :=
  match st.current_class with
  | some c =>
    { st with definitions := st.definitions ++ [Definition.cls c], current_class := none }
  | none => st

/-- `current_class = ScriptClass(...)` plus the append to `_definitions`. -/
def setCurrent (st : SDState) (c : ScriptClass) : SDState :=
  { flushCurrent st with current_class := some c }

/-- The four class-declaration macro checks of `readScriptDefinitions`, in
code order. -/
def sdClassMacros (st : SDState) (desc : String) (l : SLine) : SDState :=
  let st1 := match l.regClass with
    | some n => setCurrent st (mkClass (strip n) true none desc)
    | none => st
  let st2 := match l.regClassNoCreate with
    | some n => setCurrent st1 (mkClass (strip n) false none desc)
    | none => st1
  let st3 := match l.regSubclass with
    | some np => setCurrent st2 (mkClass (strip np.1) true (some (strip np.2)) desc)
    | none => st2
  match l.regSubclassNoCreate with
  | some np => setCurrent st3 (mkClass (strip np.1) false (some (strip np.2)) desc)
  | none => st3

/-- The `REGISTER_SCRIPT_CLASS_FUNCTION` check:
`func = current_class.addFunction(...)` raises when `current_class` is
`None`. -/
def sdClassFunction (st : SDState) (desc : String) (l : SLine) : Except Unit SDState :=
  match l.regClassFunction with
  | some nf =>
    match st.current_class with
    | none => .error ()
    | some c =>
      .ok { st with current_class := some { c with functions := c.functions ++
        [{ name := strip nf.2, description := desc, origin_class := some (strip nf.1) }] } }
  | none => .ok st

/-- The `REGISTER_SCRIPT_CLASS_CALLBACK` check:
`current_class.addCallback(...)` raises when `current_class` is `None`. -/
def sdClassCallback (st : SDState) (l : SLine) : Except Unit SDState :=
  match l.regClassCallback with
  | some nc =>
    match st.current_class with
    | none => .error ()
    | some c =>
      .ok { st with current_class := some { c with callbacks := c.callbacks ++ [strip nc.2] } }
  | none => .ok st

/-- The `REGISTER_SCRIPT_FUNCTION` check: sets `current_class = None` and
appends a top-level `ScriptFunction` with the pending description. -/
def sdFunction (st : SDState) (desc : String) (l : SLine) : SDState :=
  match l.regFunction with
  | some n =>
    let stf := flushCurrent st
    { stf with definitions := stf.definitions ++
        [Definition.fn { name := strip n, description := desc }] }
  | none => st

/-- One line of `readScriptDefinitions`: directive lines are skipped whole
(keeping the description buffer), `///` lines accumulate into the buffer and
skip the macro checks, and any other line runs the macro checks in code
order and ends with `description = ""`. -/
def sdStep (st : SDState) (l : SLine) : Except Unit SDState :=
  if l.startsHash then .ok st
  else match l.doc with
  | some t =>
    .ok { st with description :=
      (if st.description ≠ "" then st.description ++ "\n" else st.description) ++ t }
  | none =>
    match sdClassFunction (sdClassMacros st st.description l) st.description l with
    | .error e => .error e
    | .ok st5 =>
      match sdClassCallback st5 l with
      | .error e => .error e
      | .ok st6 => .ok { sdFunction st6 st.description l with description := "" }

/-- The per-file line loop of `readScriptDefinitions`. -/
def sdLines : SDState → List SLine → Except Unit SDState
  | st, [] => .ok st
  | st, l :: ls =>
    match sdStep st l with
    | .error e => .error e
    | .ok st1 => sdLines st1 ls

/-- One file of `readScriptDefinitions`: `description` and `current_class`
start fresh, the definition list carries over. -/
def sdFile (defs : List Definition) (ls : List SLine) : Except Unit (List Definition) :=
  match sdLines { description := "", definitions := defs, current_class := none } ls with
  | .error e => .error e
  | .ok st => .ok (flushCurrent st).definitions

/-- The file loop of `readScriptDefinitions`. -/
def sdFiles : List Definition → List (List SLine) → Except Unit (List Definition)
  | defs, [] => .ok defs
  | defs, f :: rest =>
    match sdFile defs f with
    | .error e => .error e
    | .ok defs1 => sdFiles defs1 rest

/-- `DocumentationGenerator.readScriptDefinitions` over the files of the
SourceSet (each file given as its list of scanned lines). -/
def readScriptDefinitions (files : List (List SLine)) : Except Unit (List Definition) :=
  sdFiles [] files

theorem sdStep_eq_skip {st : SDState} {l : SLine} (h : l.startsHash = true) :
    sdStep st l = .ok st := by
  simp [sdStep, h]

theorem sdStep_eq_doc {st : SDState} {l : SLine} {t : String}
    (hh : l.startsHash = false) (hd : l.doc = some t) :
    sdStep st l = .ok { st with description :=
      (if st.description ≠ "" then st.description ++ "\n" else st.description) ++ t } := by
  simp [sdStep, hh, hd]

theorem sdStep_eq_decl {st : SDState} {l : SLine}
    (hh : l.startsHash = false) (hd : l.doc = none) :
    sdStep st l =
      (match sdClassFunction (sdClassMacros st st.description l) st.description l with
       | .error e => .error e
       | .ok st5 =>
         (match sdClassCallback st5 l with
          | .error e => .error e
          | .ok st6 => .ok { sdFunction st6 st.description l with description := "" })) := by
  simp [sdStep, hh, hd]

theorem sdClassFunction_cur {st st' : SDState} {desc : String} {l : SLine}
    {c : ScriptClass} (h : sdClassFunction st desc l = .ok st')
    (hc : st.current_class = some c) :
    ∃ c', st'.current_class = some c' ∧ c'.description = c.description ∧
      c'.name = c.name ∧ st'.description = st.description := by
  unfold sdClassFunction at h
  cases hnf : l.regClassFunction with
  | none =>
    rw [hnf] at h
    injection h with h
    subst h
    exact ⟨c, hc, rfl, rfl, rfl⟩
  | some nf =>
    rw [hnf, hc] at h
    injection h with h
    subst h
    exact ⟨_, rfl, rfl, rfl, rfl⟩

theorem sdClassCallback_cur {st st' : SDState} {l : SLine}
    {c : ScriptClass} (h : sdClassCallback st l = .ok st')
    (hc : st.current_class = some c) :
    ∃ c', st'.current_class = some c' ∧ c'.description = c.description ∧
      c'.name = c.name := by
  unfold sdClassCallback at h
  cases hnc : l.regClassCallback with
  | none =>
    rw [hnc] at h
    injection h with h
    subst h
    exact ⟨c, hc, rfl, rfl⟩
  | some nc =>
    rw [hnc, hc] at h
    injection h with h
    subst h
    exact ⟨_, rfl, rfl, rfl⟩

/-- C6 (amended): the pending-description buffer of the Declaration
Extractor accumulates on documentation-comment lines, is preserved
unchanged by directive lines beginning with `#` (they are skipped whole),
is cleared at the end of every other processed line whether or not it
matched a declaration, and the value it holds when a class-declaration
macro fires becomes that class's description. A documentation block
therefore attaches to a later macro exactly when every line standing
between them is a directive line. -/
theorem c6_description_buffer :
    (∀ (st : SDState) (l : SLine), l.startsHash = true → sdStep st l = .ok st) ∧
    (∀ (st st' : SDState) (l : SLine), l.startsHash = false → l.doc = none →
      sdStep st l = .ok st' → st'.description = "") ∧
    (∀ (st : SDState) (l : SLine) (t : String), l.startsHash = false → l.doc = some t →
      sdStep st l = .ok { st with description :=
        (if st.description ≠ "" then st.description ++ "\n" else st.description) ++ t }) ∧
    (∀ (st st' : SDState) (l : SLine) (n : String), l.startsHash = false → l.doc = none →
      l.regClass = some n → l.regClassNoCreate = none → l.regSubclass = none →
      l.regSubclassNoCreate = none → l.regFunction = none →
      sdStep st l = .ok st' →
      ∃ c, st'.current_class = some c ∧ c.description = st.description ∧
        c.name = strip n) := by
  refine ⟨fun st l h => sdStep_eq_skip h, ?_, fun st l t hh hd => sdStep_eq_doc hh hd, ?_⟩
  · intro st st' l hh hd h
    rw [sdStep_eq_decl hh hd] at h
    split at h
    next e heq => exact Except.noConfusion h
    next st5 heq5 =>
      split at h
      next e heq => exact Except.noConfusion h
      next st6 heq6 =>
        injection h with h
        subst h
        rfl
  · intro st st' l n hh hd hrc hrnc hrs hrsn hrf h
    rw [sdStep_eq_decl hh hd] at h
    have hst4 : sdClassMacros st st.description l =
        setCurrent st (mkClass (strip n) true none st.description) := by
      unfold sdClassMacros
      simp only [hrc, hrnc, hrs, hrsn]
    rw [hst4] at h
    have hcur4 : (setCurrent st (mkClass (strip n) true none st.description)).current_class =
        some (mkClass (strip n) true none st.description) := rfl
    split at h
    next e heq => exact Except.noConfusion h
    next st5 heq5 =>
      split at h
      next e heq => exact Except.noConfusion h
      next st6 heq6 =>
        injection h with h
        rcases sdClassFunction_cur heq5 hcur4 with ⟨c5, hc5, hd5, hn5, _⟩
        rcases sdClassCallback_cur heq6 hc5 with ⟨c6, hc6, hd6, hn6⟩
        have hfn : sdFunction st6 st.description l = st6 := by
          unfold sdFunction
          rw [hrf]
        refine ⟨c6, ?_, ?_, ?_⟩
        · rw [← h]
          show (sdFunction st6 st.description l).current_class = some c6
          rw [hfn]
          exact hc6
        · rw [hd6, hd5]
          rfl
        · rw [hn6, hn5]
          rfl

/-- The C6 counterexample input: a documentation line, then an intervening
directive line (which is a non-comment, non-declaration line), then a class
macro. -/
def c6file : List SLine :=
  [{ doc := some "docText" }, { startsHash := true }, { regClass := some "Foo" }]

/-- C6 (counterexample): the documentation block IS attached to the macro
although a non-comment, non-declaration line (the `#` directive line) stands
between them — the directive line is skipped whole and does not clear the
buffer, contradicting the claim that any intervening non-comment,
non-declaration line clears it. -/
theorem c6_counterexample :
    readScriptDefinitions [c6file] =
      .ok [Definition.cls { name := "Foo", description := "docText" }] := by
  decide

/-- The scan state used by the C6 witness, holding a pending description. -/
def c6wst : SDState := { description := "pending", definitions := [], current_class := none }

/-- A directive line. -/
def c6wl1 : SLine := { startsHash := true }

/-- A plain line matching nothing. -/
def c6wl2 : SLine := {}

/-- A class-macro line. -/
def c6wl3 : SLine := { regClass := some "Foo" }

/-- The state after `c6wl2`: buffer cleared. -/
def c6wst2 : SDState := { description := "", definitions := [], current_class := none }

/-- The state after `c6wl3`: class created with the pending description. -/
def c6wst3 : SDState :=
  { description := "", definitions := [],
    current_class := some (mkClass "Foo" true none "pending") }

/-- C6 (witness): the amended theorem applied to concrete lines — a
directive line preserves the state, a plain line clears the buffer, and a
class macro attaches the pending description. -/
theorem c6_witness :
    sdStep c6wst c6wl1 = .ok c6wst ∧
    c6wst2.description = "" ∧
    (∃ c, c6wst3.current_class = some c ∧ c.description = c6wst.description ∧
      c.name = strip "Foo") :=
  ⟨c6_description_buffer.1 c6wst c6wl1 rfl,
   c6_description_buffer.2.1 c6wst c6wst2 c6wl2 rfl rfl (by decide),
   c6_description_buffer.2.2.2 c6wst c6wst3 c6wl3 "Foo" rfl rfl rfl rfl rfl rfl rfl
     (by decide)⟩

/-- The C2 counterexample input: a class macro followed by a class-function
macro declaring a function named `isValid` on it. -/
def c2cexFile : List SLine :=
  [{ regClass := some "Foo" }, { regClassFunction := some ("Foo", "isValid") }]

/-- The model extracted from `c2cexFile`. -/
def c2cexDefs : List Definition :=
  [Definition.cls
    { name := "Foo"
      functions := [{ name := "isValid", origin_class := some "Foo" }] }]

/-- The model after `linkParents`. -/
def c2cexOut : List Definition :=
  [Definition.cls
    { name := "Foo"
      functions := [{ name := "isValid", origin_class := some "Foo" }, isValidFn, destroyFn]
      members := [typeNameMember] }]

/-- C2 (counterexample): a root class that itself declares a function named
`isValid` via `REGISTER_SCRIPT_CLASS_FUNCTION` holds TWO entries named
`isValid` after `linkParents`, not exactly one as the claim states. -/
theorem c2_counterexample :
    readScriptDefinitions [c2cexFile] = .ok c2cexDefs ∧
    linkParents c2cexDefs = .ok (c2cexOut, []) ∧
    (funcsAt c2cexOut 0).countP (fun f => f.name == "isValid") = 2 := by
  refine ⟨by decide, by decide, by decide⟩

/-- A line skipped whole by `readScriptDefinitions`: a directive line or a
documentation-comment line (the latter accumulates and `continue`s). -/
def skipL (l : SLine) : Bool := l.startsHash || l.doc.isSome

/-- A line carrying one of the four class-declaration macros, which set the
current-class context. -/
def setsCls (l : SLine) : Bool :=
  l.regClass.isSome || l.regClassNoCreate.isSome ||
  l.regSubclass.isSome || l.regSubclassNoCreate.isSome

/-- A line carrying a class-function or class-callback macro, which calls a
method on the current class object. -/
def usesCls (l : SLine) : Bool :=
  l.regClassFunction.isSome || l.regClassCallback.isSome

/-- A line carrying the free-function macro, which clears the current-class
context. -/
def clearsCls (l : SLine) : Bool := l.regFunction.isSome

/-- Whether a current-class context is active after processing one more
line, given whether one was active before. -/
def stepctx (c : Bool) (l : SLine) : Bool :=
  if skipL l then c else if clearsCls l then false else if setsCls l then true else c

/-- Whether a current-class context is active after a list of lines. -/
def ctxAfter (c : Bool) (ls : List SLine) : Bool := ls.foldl stepctx c

theorem skipL_false {l : SLine} (h : skipL l = false) :
    l.startsHash = false ∧ l.doc = none := by
  unfold skipL at h
  rcases Bool.or_eq_false_iff.mp h with ⟨h1, h2⟩
  refine ⟨h1, ?_⟩
  cases hd : l.doc with
  | none => rfl
  | some t => rw [hd] at h2; exact Bool.noConfusion h2

theorem sdClassMacros_id {st : SDState} {desc : String} {l : SLine}
    (h : setsCls l = false) : sdClassMacros st desc l = st := by
  unfold setsCls at h
  have h1 : l.regClass = none := by
    cases hx : l.regClass with
    | none => rfl
    | some n => rw [hx] at h; simp at h
  have h2 : l.regClassNoCreate = none := by
    cases hx : l.regClassNoCreate with
    | none => rfl
    | some n => rw [hx] at h; simp at h
  have h3 : l.regSubclass = none := by
    cases hx : l.regSubclass with
    | none => rfl
    | some n => rw [hx] at h; simp at h
  have h4 : l.regSubclassNoCreate = none := by
    cases hx : l.regSubclassNoCreate with
    | none => rfl
    | some n => rw [hx] at h; simp at h
  unfold sdClassMacros
  simp only [h1, h2, h3, h4]

theorem flushCurrent_cur (st : SDState) : (flushCurrent st).current_class = none := by
  cases hc : st.current_class <;> simp [flushCurrent, hc]

theorem setCurrent_cur (st : SDState) (c : ScriptClass) :
    (setCurrent st c).current_class = some c := rfl

theorem sdClassMacros_isSome {st : SDState} {desc : String} {l : SLine}
    (h : setsCls l = true) :
    (sdClassMacros st desc l).current_class.isSome = true := by
  unfold sdClassMacros
  cases h4 : l.regSubclassNoCreate with
  | some np => rfl
  | none =>
    cases h3 : l.regSubclass with
    | some np => rfl
    | none =>
      cases h2 : l.regClassNoCreate with
      | some n => rfl
      | none =>
        cases h1 : l.regClass with
        | some n => rfl
        | none => simp [setsCls, h1, h2, h3, h4] at h

theorem sdClassFunction_isSome {st st' : SDState} {desc : String} {l : SLine}
    (h : sdClassFunction st desc l = .ok st') :
    st'.current_class.isSome = st.current_class.isSome := by
  unfold sdClassFunction at h
  cases hnf : l.regClassFunction with
  | none =>
    rw [hnf] at h
    injection h with h
    subst h
    rfl
  | some nf =>
    rw [hnf] at h
    cases hc : st.current_class with
    | none => rw [hc] at h; exact Except.noConfusion h
    | some c =>
      rw [hc] at h
      injection h with h
      subst h
      rfl

theorem sdClassCallback_isSome {st st' : SDState} {l : SLine}
    (h : sdClassCallback st l = .ok st') :
    st'.current_class.isSome = st.current_class.isSome := by
  unfold sdClassCallback at h
  cases hnc : l.regClassCallback with
  | none =>
    rw [hnc] at h
    injection h with h
    subst h
    rfl
  | some nc =>
    rw [hnc] at h
    cases hc : st.current_class with
    | none => rw [hc] at h; exact Except.noConfusion h
    | some c =>
      rw [hc] at h
      injection h with h
      subst h
      rfl

theorem sdFunction_isSome (st : SDState) (desc : String) (l : SLine) :
    (sdFunction st desc l).current_class.isSome =
      (if clearsCls l then false else st.current_class.isSome) := by
  unfold sdFunction clearsCls
  cases hn : l.regFunction with
  | some n => simp [flushCurrent_cur]
  | none => simp

theorem sdStep_ctx {st st' : SDState} {l : SLine} (h : sdStep st l = .ok st') :
    st'.current_class.isSome = stepctx st.current_class.isSome l := by
  by_cases hsk : skipL l = true
  · unfold stepctx
    rw [if_pos hsk]
    cases hhash : l.startsHash with
    | true =>
      rw [sdStep_eq_skip hhash] at h
      injection h with h
      subst h
      rfl
    | false =>
      have hdoc : ∃ t, l.doc = some t := by
        unfold skipL at hsk
        rw [hhash] at hsk
        simpa [Option.isSome_iff_exists] using hsk
      rcases hdoc with ⟨t, hdoc⟩
      rw [sdStep_eq_doc hhash hdoc] at h
      injection h with h
      subst h
      rfl
  · have hsk' : skipL l = false := by simpa using hsk
    rcases skipL_false hsk' with ⟨hhash, hdoc⟩
    rw [sdStep_eq_decl hhash hdoc] at h
    split at h
    next e heq => exact Except.noConfusion h
    next st5 heq5 =>
      split at h
      next e heq => exact Except.noConfusion h
      next st6 heq6 =>
        injection h with h
        subst h
        show (sdFunction st6 st.description l).current_class.isSome = _
        rw [sdFunction_isSome, sdClassCallback_isSome heq6, sdClassFunction_isSome heq5]
        unfold stepctx
        rw [if_neg hsk]
        by_cases hset : setsCls l = true
        · rw [sdClassMacros_isSome hset]
          cases hclr : clearsCls l <;> simp [hset]
        · have hset' : setsCls l = false := by simpa using hset
          rw [sdClassMacros_id hset']
          cases hclr : clearsCls l <;> simp [hset']

theorem sdStep_err {st : SDState} {l : SLine} (hsk : skipL l = false)
    (hu : usesCls l = true) (hs : setsCls l = false)
    (hc : st.current_class = none) : sdStep st l = .error () := by
  rcases skipL_false hsk with ⟨hhash, hdoc⟩
  rw [sdStep_eq_decl hhash hdoc]
  rw [sdClassMacros_id hs]
  cases hfn : l.regClassFunction with
  | some nf =>
    have h5 : sdClassFunction st st.description l = .error () := by
      unfold sdClassFunction
      rw [hfn, hc]
    simp only [h5]
  | none =>
    have h5 : sdClassFunction st st.description l = .ok st := by
      unfold sdClassFunction
      rw [hfn]
    have hcb : ∃ nc, l.regClassCallback = some nc := by
      unfold usesCls at hu
      rw [hfn] at hu
      simpa [Option.isSome_iff_exists] using hu
    rcases hcb with ⟨nc, hcb⟩
    have h6 : sdClassCallback st l = .error () := by
      unfold sdClassCallback
      rw [hcb, hc]
    simp only [h5, h6]

theorem sdStep_err_inv {st : SDState} {l : SLine} {e : Unit}
    (h : sdStep st l = .error e) :
    skipL l = false ∧ usesCls l = true ∧ setsCls l = false ∧
      st.current_class = none := by
  by_cases hsk : skipL l = true
  · exfalso
    cases hhash : l.startsHash with
    | true => rw [sdStep_eq_skip hhash] at h; exact Except.noConfusion h
    | false =>
      have hdoc : ∃ t, l.doc = some t := by
        unfold skipL at hsk
        rw [hhash] at hsk
        simpa [Option.isSome_iff_exists] using hsk
      rcases hdoc with ⟨t, hdoc⟩
      rw [sdStep_eq_doc hhash hdoc] at h
      exact Except.noConfusion h
  · have hsk' : skipL l = false := by simpa using hsk
    rcases skipL_false hsk' with ⟨hhash, hdoc⟩
    rw [sdStep_eq_decl hhash hdoc] at h
    have hset : setsCls l = false := by
      by_contra hset
      have hset' : setsCls l = true := by simpa using hset
      have hS := @sdClassMacros_isSome st st.description l hset'
      split at h
      next e1 heq5 =>
        unfold sdClassFunction at heq5
        cases hnf : l.regClassFunction with
        | none => rw [hnf] at heq5; exact Except.noConfusion heq5
        | some nf =>
          rw [hnf] at heq5
          cases hcc : (sdClassMacros st st.description l).current_class with
          | none => rw [hcc] at hS; exact Bool.noConfusion hS
          | some c => rw [hcc] at heq5; exact Except.noConfusion heq5
      next st5 heq5 =>
        split at h
        next e1 heq6 =>
          unfold sdClassCallback at heq6
          cases hnc : l.regClassCallback with
          | none => rw [hnc] at heq6; exact Except.noConfusion heq6
          | some nc =>
            rw [hnc] at heq6
            have hS5 : st5.current_class.isSome = true :=
              (sdClassFunction_isSome heq5).trans hS
            cases hcc : st5.current_class with
            | none => rw [hcc] at hS5; exact Bool.noConfusion hS5
            | some c => rw [hcc] at heq6; exact Except.noConfusion heq6
        next st6 heq6 => exact Except.noConfusion h
    rw [sdClassMacros_id hset] at h
    refine ⟨hsk', ?_, hset, ?_⟩
    · split at h
      next e1 heq5 =>
        unfold sdClassFunction at heq5
        cases hnf : l.regClassFunction with
        | none => rw [hnf] at heq5; exact Except.noConfusion heq5
        | some nf => simp [usesCls, hnf]
      next st5 heq5 =>
        split at h
        next e1 heq6 =>
          unfold sdClassCallback at heq6
          cases hnc : l.regClassCallback with
          | none => rw [hnc] at heq6; exact Except.noConfusion heq6
          | some nc => simp [usesCls, hnc]
        next st6 heq6 => exact Except.noConfusion h
    · split at h
      next e1 heq5 =>
        unfold sdClassFunction at heq5
        cases hnf : l.regClassFunction with
        | none => rw [hnf] at heq5; exact Except.noConfusion heq5
        | some nf =>
          rw [hnf] at heq5
          cases hcc : st.current_class with
          | none => rfl
          | some c => rw [hcc] at heq5; exact Except.noConfusion heq5
      next st5 heq5 =>
        split at h
        next e1 heq6 =>
          unfold sdClassCallback at heq6
          cases hnc : l.regClassCallback with
          | none => rw [hnc] at heq6; exact Except.noConfusion heq6
          | some nc =>
            rw [hnc] at heq6
            cases hcc : st5.current_class with
            | none =>
              have hS5 : st5.current_class.isSome = st.current_class.isSome :=
                sdClassFunction_isSome heq5
              rw [hcc] at hS5
              cases hcs : st.current_class with
              | none => rfl
              | some c => rw [hcs] at hS5; exact Bool.noConfusion hS5.symm
            | some c => rw [hcc] at heq6; exact Except.noConfusion heq6
        next st6 heq6 => exact Except.noConfusion h

theorem sdLines_cons (st : SDState) (l : SLine) (ls : List SLine) :
    sdLines st (l :: ls) =
      (match sdStep st l with
       | .error e => .error e
       | .ok st1 => sdLines st1 ls) := rfl

theorem sdLines_append :
    ∀ (A B : List SLine) (st : SDState),
    sdLines st (A ++ B) =
      (match sdLines st A with
       | .error e => .error e
       | .ok st1 => sdLines st1 B) := by
  intro A
  induction A with
  | nil => intro B st; rfl
  | cons l A ih =>
    intro B st
    rw [List.cons_append, sdLines_cons, sdLines_cons]
    cases sdStep st l with
    | error e => rfl
    | ok st1 => exact ih B st1

theorem sdFiles_cons (defs : List Definition) (f : List SLine) (rest : List (List SLine)) :
    sdFiles defs (f :: rest) =
      (match sdFile defs f with
       | .error e => .error e
       | .ok defs1 => sdFiles defs1 rest) := rfl

theorem sdFiles_append :
    ∀ (FA FB : List (List SLine)) (defs : List Definition),
    sdFiles defs (FA ++ FB) =
      (match sdFiles defs FA with
       | .error e => .error e
       | .ok defs1 => sdFiles defs1 FB) := by
  intro FA
  induction FA with
  | nil => intro FB defs; rfl
  | cons f FA ih =>
    intro FB defs
    rw [List.cons_append, sdFiles_cons, sdFiles_cons]
    cases sdFile defs f with
    | error e => rfl
    | ok defs1 => exact ih FB defs1

theorem sdLines_ctx :
    ∀ (pre : List SLine) (st : SDState),
    sdLines st pre = .error () ∨
      ∃ st', sdLines st pre = .ok st' ∧
        st'.current_class.isSome = ctxAfter st.current_class.isSome pre := by
  intro pre
  induction pre with
  | nil =>
    intro st
    exact Or.inr ⟨st, rfl, rfl⟩
  | cons l pre ih =>
    intro st
    cases hst : sdStep st l with
    | error e =>
      left
      rw [sdLines_cons, hst]
    | ok st1 =>
      rw [sdLines_cons, hst]
      rcases ih st1 with herr | ⟨st', hok, hcx⟩
      · exact Or.inl herr
      · refine Or.inr ⟨st', hok, ?_⟩
        show st'.current_class.isSome = ctxAfter (stepctx st.current_class.isSome l) pre
        rw [hcx, sdStep_ctx hst]

theorem ctxAfter_keep_true :
    ∀ (B : List SLine), (∀ b ∈ B, skipL b = true ∨ clearsCls b = false) →
    ctxAfter true B = true := by
  intro B
  induction B with
  | nil => intro _; rfl
  | cons b B ih =>
    intro hB
    show ctxAfter (stepctx true b) B = true
    have hb : stepctx true b = true := by
      rcases hB b (by simp) with hh | hh
      · simp [stepctx, hh]
      · cases hskk : skipL b <;> cases hset : setsCls b <;>
          simp [stepctx, hh, hskk, hset]
    rw [hb]
    exact ih fun b' hb' => hB b' (by simp [hb'])

theorem ctxAfter_append (c : Bool) (A B : List SLine) :
    ctxAfter c (A ++ B) = ctxAfter (ctxAfter c A) B :=
  List.foldl_append stepctx c A B

/-- The per-file precondition of C9: every non-skipped line bearing a
class-function or class-callback macro either carries a class macro itself
or is preceded by a non-skipped class-macro line that is not itself a
free-function line, with no non-skipped free-function line in between. -/
def GoodFile (ls : List SLine) : Prop :=
  ∀ pre l post, ls = pre ++ l :: post → skipL l = false → usesCls l = true →
    setsCls l = true ∨
    ∃ A lj B, pre = A ++ lj :: B ∧ skipL lj = false ∧ setsCls lj = true ∧
      clearsCls lj = false ∧ ∀ b ∈ B, skipL b = true ∨ clearsCls b = false

theorem good_ctx {c0 : Bool} {pre A B : List SLine} {lj : SLine}
    (hpre : pre = A ++ lj :: B) (hsk : skipL lj = false) (hset : setsCls lj = true)
    (hcl : clearsCls lj = false)
    (hB : ∀ b ∈ B, skipL b = true ∨ clearsCls b = false) :
    ctxAfter c0 pre = true := by
  subst hpre
  rw [ctxAfter_append]
  show ctxAfter (stepctx (ctxAfter c0 A) lj) B = true
  have h1 : stepctx (ctxAfter c0 A) lj = true := by
    simp [stepctx, hsk, hcl, hset]
  rw [h1]
  exact ctxAfter_keep_true B hB

theorem sdLines_ok :
    ∀ (ls : List SLine) (st : SDState) (c0 : Bool),
    st.current_class.isSome = c0 →
    (∀ pre l post, ls = pre ++ l :: post → skipL l = false → usesCls l = true →
      setsCls l = true ∨ ctxAfter c0 pre = true) →
    ∃ st', sdLines st ls = .ok st' := by
  intro ls
  induction ls with
  | nil =>
    intro st c0 _ _
    exact ⟨st, rfl⟩
  | cons l ls ih =>
    intro st c0 hc0 hpre
    cases hst : sdStep st l with
    | error e =>
      exfalso
      rcases sdStep_err_inv hst with ⟨hsk, hu, hs, hcn⟩
      rcases hpre [] l ls rfl hsk hu with hh | hh
      · rw [hs] at hh
        exact Bool.noConfusion hh
      · show False
        have : c0 = false := by
          rw [← hc0, hcn]
          rfl
        rw [this] at hh
        exact Bool.noConfusion ((rfl : ctxAfter false [] = false).symm.trans hh)
    | ok st1 =>
      rw [sdLines_cons, hst]
      have hc1 : st1.current_class.isSome = stepctx c0 l := by
        rw [sdStep_ctx hst, hc0]
      refine ih st1 (stepctx c0 l) hc1 ?_
      intro pre' l' post' heq hsk' hu'
      rcases hpre (l :: pre') l' post' (by rw [heq]; rfl) hsk' hu' with hh | hh
      · exact Or.inl hh
      · right
        rw [show ctxAfter c0 (l :: pre') = ctxAfter (stepctx c0 l) pre' from rfl] at hh
        exact hh

/-- C9: declaration extraction is total only under a macro-ordering
precondition. (a) If, within a file, a line bearing a class-function or
class-callback macro and no class macro of its own is reached with no
current-class context active — the context computed over the preceding
lines of the file from the initial absent class, set by the class macros
and cleared by the free-function macro, is inactive, covering both a macro
before any class macro and one after a free-function macro cleared the
context — `readScriptDefinitions` raises (the method call on the absent
current class), and the whole run aborts with an error. (b) Under the
precondition that in every file each such macro line either carries a
class macro itself or is preceded by a class-macro line with no
intervening free-function line (skipped lines not counted), the error
branch is unreachable and `readScriptDefinitions` succeeds. -/
theorem c9_macro_ordering :
    (∀ (FA FB : List (List SLine)) (pre post : List SLine) (l : SLine),
      ctxAfter false pre = false →
      skipL l = false → usesCls l = true → setsCls l = false →
      readScriptDefinitions (FA ++ (pre ++ l :: post) :: FB) = .error ()) ∧
    (∀ files : List (List SLine), (∀ ls ∈ files, GoodFile ls) →
      ∃ out, readScriptDefinitions files = .ok out) := by
  constructor
  · intro FA FB pre post l hpre hskl hul hsl
    unfold readScriptDefinitions
    rw [sdFiles_append]
    cases hA : sdFiles [] FA with
    | error e => cases e; rfl
    | ok defsA =>
      show sdFiles defsA ((pre ++ l :: post) :: FB) = .error ()
      have hfile : sdFile defsA (pre ++ l :: post) = .error () := by
        unfold sdFile
        rw [sdLines_append]
        rcases sdLines_ctx pre
            { description := "", definitions := defsA, current_class := none }
            with herr | ⟨st', hok, hcx⟩
        · simp only [herr]
        · simp only [hok]
          have hcn : st'.current_class = none := by
            have hf : st'.current_class.isSome = false := by
              rw [hcx]; exact hpre
            cases hc : st'.current_class with
            | none => rfl
            | some c => rw [hc] at hf; exact Bool.noConfusion hf
          rw [sdLines_cons, sdStep_err hskl hul hsl hcn]
      rw [sdFiles_cons]
      simp only [hfile]
  · intro files hgood
    unfold readScriptDefinitions
    suffices h : ∀ (fs : List (List SLine)) (defs : List Definition),
        (∀ ls ∈ fs, GoodFile ls) → ∃ out, sdFiles defs fs = .ok out by
      exact h files [] hgood
    intro fs
    induction fs with
    | nil =>
      intro defs _
      exact ⟨defs, rfl⟩
    | cons f rest ih =>
      intro defs hg
      have hfile : ∃ defs1, sdFile defs f = .ok defs1 := by
        unfold sdFile
        have hlines : ∃ st', sdLines
            { description := "", definitions := defs, current_class := none } f =
            .ok st' := by
          refine sdLines_ok f _ false rfl ?_
          intro pre l post heq hsk hu
          rcases hg f (by simp) pre l post heq hsk hu with hh | hh
          · exact Or.inl hh
          · rcases hh with ⟨A, lj, B, h1, h2, h3, h4, h5⟩
            exact Or.inr (good_ctx h1 h2 h3 h4 h5)
        rcases hlines with ⟨st', hst'⟩
        exact ⟨_, by rw [hst']⟩
      rcases hfile with ⟨defs1, hfile⟩
      rw [sdFiles_cons]
      simp only [hfile]
      exact ih defs1 fun ls hls => hg ls (by simp [hls])

/-- The erroring input of the C9 witness: a class-function macro with no
class context at all. -/
def c9bad : SLine := { regClassFunction := some ("A", "f") }

/-- The erroring file of the C9 witness: a class macro sets the context, a
free-function macro clears it, then an orphaned class-function macro. -/
def c9badFile : List SLine :=
  [{ regClass := some "Bar" }, { regFunction := some "sin" }, c9bad]

/-- A well-ordered file for the C9 witness: a class macro then a
class-function macro. -/
def c9goodFile : List SLine :=
  [{ regClass := some "Foo" }, { regClassFunction := some ("Foo", "bar") }]

/-- C9 (witness): the theorem applied to a concrete file whose context is
cleared by a free-function macro before an orphaned class-function macro
(the run aborts) and to a concrete well-ordered file (the run succeeds). -/
theorem c9_witness :
    readScriptDefinitions [c9badFile] = .error () ∧
    ∃ out, readScriptDefinitions [c9goodFile] = .ok out := by
  constructor
  · exact c9_macro_ordering.1 [] []
      [{ regClass := some "Bar" }, { regFunction := some "sin" }] [] c9bad
      (by decide) (by decide) (by decide) (by decide)
  · refine c9_macro_ordering.2 [c9goodFile] ?_
    intro ls hls pre l post heq hsk hu
    have hls' : ls = c9goodFile := by simpa using hls
    subst hls'
    rcases pre with _ | ⟨p1, pre⟩
    · injection heq with h1 h2
      subst h1
      exact absurd hu (by decide)
    · injection heq with h1 h2
      subst h1
      rcases pre with _ | ⟨p2, pre⟩
      · injection h2 with h3 h4
        subst h3
        refine Or.inr ⟨[], { regClass := some "Foo" }, [], rfl, by decide, by decide,
          by decide, ?_⟩
        intro b hb
        exact absurd hb (List.not_mem_nil b)
      · injection h2 with h3 h4
        subst h3
        exfalso
        rcases pre with _ | ⟨p3, pre⟩
        · exact List.noConfusion h4
        · exact List.noConfusion h4

/-! `DocumentationGenerator.readFunctionInfo`. A header line is embedded as
the tuple of its regex match results in code order: the leading-`#` test,
the out-of-class pattern `Identifier::Identifier(arglist)` (three groups),
the `^class Identifier` pattern (one group), and the in-class pattern
(groups 2 and 3: method name and argument text; the Python code checks
`res.group(2) != ""`). -/

/-- The regex match results of one line processed by `readFunctionInfo`. -/
structure HLine where
  startsHash : Bool := false
  methodDef : Option (String × String × String) := none
  classDecl : Option String := none
  inClass : Option (String × String) := none
deriving DecidableEq

/-- The per-file state of `readFunctionInfo`: the accumulated
`_function_info` table and the `current_class` name. -/
structure FIState where
  function_info : List (String × String × String)
  current_class : Option String
deriving DecidableEq

/-- One line of `readFunctionInfo`: directive lines are skipped; the
out-of-class pattern appends its triple unconditionally; a `class` line
replaces the current class; while a current class is active, an in-class
match with a non-empty name appends a triple owned by it. -/
def fiStep (st : FIState) (l : HLine) : FIState :=
  if l.startsHash then st
  else
    let st1 := match l.methodDef with
      | some t => { st with function_info := st.function_info ++ [t] }
      | none => st
    let st2 := match l.classDecl with
      | some c => { st1 with current_class := some c }
      | none => st1
    match st2.current_class with
    | some c =>
      match l.inClass with
      | some np =>
        if np.1 ≠ "" then
          { st2 with function_info := st2.function_info ++ [(c, np.1, np.2)] }
        else st2
      | none => st2
    | none => st2

/-- The per-file line loop of `readFunctionInfo`. -/
def fiLines (st : FIState) (ls : List HLine) : FIState := ls.foldl fiStep st

/-- `DocumentationGenerator.readFunctionInfo` over the header files of the
SourceSet: `current_class` starts as `None` in each file, the signature
table accumulates across files. -/
def readFunctionInfo (files : List (List HLine)) : List (String × String × String) :=
  files.foldl
    (fun acc f => (fiLines { function_info := acc, current_class := none } f).function_info)
    []

theorem fiStep_cur_pres {st : FIState} {l : HLine}
    (h : l.startsHash = true ∨ l.classDecl = none) :
    (fiStep st l).current_class = st.current_class := by
  cases hhash : l.startsHash with
  | true => simp [fiStep, hhash]
  | false =>
    have hcd : l.classDecl = none := by
      rcases h with h | h
      · rw [hhash] at h
        exact Bool.noConfusion h
      · exact h
    unfold fiStep
    rw [if_neg (by simp [hhash])]
    cases hmd : l.methodDef <;> simp only [hmd, hcd] <;>
      cases hcc : st.current_class <;> simp only [hcc] <;>
        cases hic : l.inClass <;> simp only [hic] <;>
          first
            | rfl
            | exact hcc
            | (split <;> first | rfl | exact hcc)

/-- C8: within a header file, the Signature Extractor's current-class
context, once set by a `class Identifier` line, persists for the remainder
of the file — (a) it is unchanged by any sequence of lines that are
directives or carry no `class` declaration, (b) while it holds class `c`,
every non-directive line matching the in-class pattern with a non-empty
method name `m` and arguments `p` appends the triple `(c, m, p)` (after the
optional out-of-class triple of the same line) and keeps the context at
`c`, and (c) a non-directive `class c` line replaces the context by `c`
regardless of the previous state. -/
theorem c8_current_class_persistence :
    (∀ (st : FIState) (post : List HLine),
      (∀ l ∈ post, l.startsHash = true ∨ l.classDecl = none) →
      (fiLines st post).current_class = st.current_class) ∧
    (∀ (st : FIState) (l : HLine) (c m p : String),
      st.current_class = some c → l.startsHash = false → l.classDecl = none →
      l.inClass = some (m, p) → m ≠ "" →
      (∃ mid, (fiStep st l).function_info = st.function_info ++ mid ++ [(c, m, p)]) ∧
      (fiStep st l).current_class = some c) ∧
    (∀ (st : FIState) (l : HLine) (c : String),
      l.startsHash = false → l.classDecl = some c →
      (fiStep st l).current_class = some c) := by
  refine ⟨?_, ?_, ?_⟩
  · intro st post
    induction post generalizing st with
    | nil => intro _; rfl
    | cons l post ih =>
      intro hno
      show (fiLines (fiStep st l) post).current_class = _
      rw [ih (fiStep st l) fun l' hl' => hno l' (by simp [hl'])]
      exact fiStep_cur_pres (hno l (by simp))
  · intro st l c m p hc hhash hcd hic hm
    unfold fiStep
    rw [if_neg (by simp [hhash])]
    cases hmd : l.methodDef with
    | none =>
      simp only [hcd, hic, hc]
      rw [if_pos hm]
      exact ⟨⟨[], by simp⟩, rfl⟩
    | some t =>
      simp only [hcd, hic, hc]
      rw [if_pos hm]
      exact ⟨⟨[t], by simp⟩, rfl⟩
  · intro st l c hhash hcd
    unfold fiStep
    rw [if_neg (by simp [hhash])]
    cases hmd : l.methodDef <;> simp only [hmd, hcd] <;>
      cases hic : l.inClass <;> simp only [hic] <;>
        first
          | rfl
          | (split <;> rfl)

/-- The C8 witness state: an active current class. -/
def c8st : FIState := { function_info := [], current_class := some "K" }

/-- A non-class line carrying an out-of-class match. -/
def c8l1 : HLine := { methodDef := some ("A", "b", "c") }

/-- An in-class-match line. -/
def c8l2 : HLine := { inClass := some ("m", "p") }

/-- A class-declaration line. -/
def c8l3 : HLine := { classDecl := some "C" }

/-- A fresh state with no current class. -/
def c8fresh : FIState := { function_info := [], current_class := none }

/-- C8 (witness): the theorem applied to concrete lines — the context
survives a non-class line, an in-class match is recorded under the active
class, and a class line replaces the context. -/
theorem c8_witness :
    (fiLines c8st [c8l1]).current_class = c8st.current_class ∧
    ((∃ mid, (fiStep c8st c8l2).function_info =
        c8st.function_info ++ mid ++ [("K", "m", "p")]) ∧
      (fiStep c8st c8l2).current_class = some "K") ∧
    (fiStep c8fresh c8l3).current_class = some "C" :=
  ⟨c8_current_class_persistence.1 c8st [c8l1]
      (fun l hl => by rw [List.eq_of_mem_singleton hl]; exact Or.inr rfl),
   c8_current_class_persistence.2.1 c8st c8l2 "K" "m" "p" rfl rfl rfl rfl (by decide),
   c8_current_class_persistence.2.2 c8fresh c8l3 "C" rfl rfl⟩

/-! `DocumentationGenerator.addFile`. The filesystem is embedded as a finite
association list from filename to a `FileData`: whether the extension test
`ext == ".c" or ext == ".cpp" or ext == ".h"` holds, and the candidate
include names produced by the file's `#include` lines in processing order
(each directive contributes `m.group(1)` and then
`os.path.join(os.path.dirname(filename), m.group(1))`). The recursion of
`addFile` is embedded with an explicit depth fuel; the termination theorem
shows that fuel equal to the number of existing, not yet visited files
always suffices, so the Python recursion (whose depth is bounded by exactly
that count, each recursive level first adding a new file to `_files`)
terminates even on include cycles. -/

/-- An existing file of the collector model. -/
structure FileData where
  isSrc : Bool
  incs : List String
deriving DecidableEq

/-- `os.path.isfile` plus reading: look the filename up in the filesystem. -/
def lookupFS : List (String × FileData) → String → Option FileData
  | [], _ => none
  | p :: fs, f => if p.1 == f then some p.2 else lookupFS fs f

/-- `addFile` on a worklist of filenames: a name already in `_files`
(`visited`) returns immediately, a non-file returns, otherwise the name is
added and, for source files, the include candidates are processed
depth-first before the rest of the worklist. `none` means the recursion
fuel ran out. -/
def addMany (fs : List (String × FileData)) (fuel : Nat) (visited : List String)
    (l : List String) : Option (List String) :=
  match l with
  | [] => some visited
  | f :: rest =>
    if f ∈ visited then addMany fs fuel visited rest
    else match lookupFS fs f with
      | none => addMany fs fuel visited rest
      | some data =>
        match fuel with
        | 0 => none
        | fuel' + 1 =>
          match addMany fs fuel' (f :: visited) (if data.isSrc then data.incs else []) with
          | none => none
          | some v => addMany fs (fuel' + 1) v rest
termination_by (fuel, l.length)

/-- `DocumentationGenerator.addFile` for a single filename. -/
def addFile (fs : List (String × FileData)) (fuel : Nat) (visited : List String)
    (f : String) : Option (List String) :=
  addMany fs fuel visited [f]

/-- The number of existing files not yet visited — the measure that bounds
the recursion depth of `addFile`. -/
def newCount (fs : List (String × FileData)) (visited : List String) : Nat :=
  ((fs.map Prod.fst).filter (fun k => !visited.contains k)).length

theorem addMany_nil (fs : List (String × FileData)) (fuel : Nat)
    (visited : List String) : addMany fs fuel visited [] = some visited := by
  simp [addMany]

theorem addMany_cons (fs : List (String × FileData)) (fuel : Nat)
    (visited : List String) (f : String) (rest : List String) :
    addMany fs fuel visited (f :: rest) =
      (if f ∈ visited then addMany fs fuel visited rest
       else match lookupFS fs f with
        | none => addMany fs fuel visited rest
        | some data =>
          (match fuel with
           | 0 => none
           | fuel' + 1 =>
             (match addMany fs fuel' (f :: visited)
                 (if data.isSrc then data.incs else []) with
              | none => none
              | some v => addMany fs (fuel' + 1) v rest))) := by
  rw [addMany]

theorem addMany_cons_zero (fs : List (String × FileData)) (visited : List String)
    (f : String) (rest : List String) :
    addMany fs 0 visited (f :: rest) =
      (if f ∈ visited then addMany fs 0 visited rest
       else match lookupFS fs f with
        | none => addMany fs 0 visited rest
        | some _ => none) := by
  rw [addMany_cons]

theorem addMany_cons_succ (fs : List (String × FileData)) (fuel' : Nat)
    (visited : List String) (f : String) (rest : List String) :
    addMany fs (fuel' + 1) visited (f :: rest) =
      (if f ∈ visited then addMany fs (fuel' + 1) visited rest
       else match lookupFS fs f with
        | none => addMany fs (fuel' + 1) visited rest
        | some data =>
          (match addMany fs fuel' (f :: visited)
              (if data.isSrc then data.incs else []) with
           | none => none
           | some v => addMany fs (fuel' + 1) v rest)) := by
  rw [addMany_cons]

theorem lookupFS_mem :
    ∀ (fs : List (String × FileData)) (f : String) (d : FileData),
    lookupFS fs f = some d → f ∈ fs.map Prod.fst := by
  intro fs
  induction fs with
  | nil =>
    intro f d h
    exact Option.noConfusion h
  | cons p fs ih =>
    intro f d h
    unfold lookupFS at h
    by_cases hp : (p.1 == f) = true
    · have : p.1 = f := by simpa using hp
      rw [List.map_cons, this]
      exact List.mem_cons_self f _
    · rw [if_neg (by simpa using hp)] at h
      rw [List.map_cons]
      exact List.mem_cons_of_mem _ (ih f d h)

theorem length_filter_mono :
    ∀ (l : List String) (p q : String → Bool),
    (∀ a, p a = true → q a = true) →
    (l.filter p).length ≤ (l.filter q).length := by
  intro l p q himp
  induction l with
  | nil => simp
  | cons a l ih =>
    rw [List.filter_cons, List.filter_cons]
    by_cases hp : p a = true
    · rw [if_pos hp, if_pos (himp a hp)]
      simpa using ih
    · rw [if_neg hp]
      by_cases hq : q a = true
      · rw [if_pos hq]
        exact le_trans ih (by simp)
      · rw [if_neg hq]
        exact ih

theorem newCount_subset {fs : List (String × FileData)} {v1 v2 : List String}
    (h : ∀ x ∈ v1, x ∈ v2) : newCount fs v2 ≤ newCount fs v1 := by
  unfold newCount
  refine length_filter_mono _ _ _ ?_
  intro a ha
  cases hc1 : v1.contains a with
  | false => rfl
  | true =>
    exfalso
    have ha2 : a ∈ v2 := h a (List.elem_iff.mp hc1)
    have hc2 : v2.contains a = true := List.elem_iff.mpr ha2
    rw [hc2] at ha
    exact Bool.noConfusion ha

theorem filter_dec :
    ∀ (keys : List String) (f : String) (visited : List String),
    keys.Nodup → f ∈ keys → f ∉ visited →
    (keys.filter (fun k => !(f :: visited).contains k)).length + 1 =
      (keys.filter (fun k => !visited.contains k)).length := by
  intro keys
  induction keys with
  | nil =>
    intro f visited _ hmem
    exact absurd hmem (List.not_mem_nil f)
  | cons a keys ih =>
    intro f visited hnd hmem hnv
    rw [List.nodup_cons] at hnd
    rw [List.filter_cons, List.filter_cons]
    by_cases haf : a = f
    · subst haf
      have hcv : visited.contains a = false := by
        cases hc : visited.contains a with
        | false => rfl
        | true => exact absurd (List.elem_iff.mp hc) hnv
      rw [if_neg (by simp), if_pos (by simp [hnv])]
      have hfeq : keys.filter (fun k => !(a :: visited).contains k) =
          keys.filter (fun k => !visited.contains k) := by
        refine List.filter_congr ?_
        intro k hk
        have hka : ¬(k = a) := fun hh => hnd.1 (hh ▸ hk)
        simp [hka]
      rw [hfeq]
      simp
    · have hsame : ((f :: visited).contains a) = (visited.contains a) := by
        simp [haf]
      have hmem' : f ∈ keys := by
        rcases List.mem_cons.mp hmem with h | h
        · exact absurd h.symm haf
        · exact h
      rw [hsame]
      by_cases hca : (!visited.contains a) = true
      · rw [if_pos hca, if_pos hca]
        simp only [List.length_cons]
        have := ih f visited hnd.2 hmem' hnv
        omega
      · rw [if_neg hca, if_neg hca]
        exact ih f visited hnd.2 hmem' hnv

theorem newCount_cons {fs : List (String × FileData)} {f : String}
    {visited : List String} (hk : (fs.map Prod.fst).Nodup)
    (hmem : f ∈ fs.map Prod.fst) (hnv : f ∉ visited) :
    newCount fs (f :: visited) + 1 = newCount fs visited :=
  filter_dec (fs.map Prod.fst) f visited hk hmem hnv

theorem addMany_subset (fs : List (String × FileData)) :
    ∀ (fuel : Nat) (l visited v : List String),
    addMany fs fuel visited l = some v → ∀ x ∈ visited, x ∈ v := by
  intro fuel
  induction fuel with
  | zero =>
    intro l
    induction l with
    | nil =>
      intro visited v h x hx
      rw [addMany_nil] at h
      injection h with h
      exact h ▸ hx
    | cons f rest ih =>
      intro visited v h x hx
      rw [addMany_cons_zero] at h
      split at h
      · exact ih visited v h x hx
      · split at h
        next heq => exact ih visited v h x hx
        next data heq => exact Option.noConfusion h
  | succ fuel' ihf =>
    intro l
    induction l with
    | nil =>
      intro visited v h x hx
      rw [addMany_nil] at h
      injection h with h
      exact h ▸ hx
    | cons f rest ih =>
      intro visited v h x hx
      rw [addMany_cons_succ] at h
      split at h
      · exact ih visited v h x hx
      · split at h
        next heq => exact ih visited v h x hx
        next data heq =>
          split at h
          next heq2 => exact Option.noConfusion h
          next v1 heq2 =>
            exact ih v1 v h x (ihf _ (f :: visited) v1 heq2 x (by simp [hx]))

theorem addMany_nodup (fs : List (String × FileData)) :
    ∀ (fuel : Nat) (l visited v : List String),
    visited.Nodup → addMany fs fuel visited l = some v → v.Nodup := by
  intro fuel
  induction fuel with
  | zero =>
    intro l
    induction l with
    | nil =>
      intro visited v hnd h
      rw [addMany_nil] at h
      injection h with h
      exact h ▸ hnd
    | cons f rest ih =>
      intro visited v hnd h
      rw [addMany_cons_zero] at h
      split at h
      · exact ih visited v hnd h
      · split at h
        next heq => exact ih visited v hnd h
        next data heq => exact Option.noConfusion h
  | succ fuel' ihf =>
    intro l
    induction l with
    | nil =>
      intro visited v hnd h
      rw [addMany_nil] at h
      injection h with h
      exact h ▸ hnd
    | cons f rest ih =>
      intro visited v hnd h
      rw [addMany_cons_succ] at h
      split at h
      next hmem => exact ih visited v hnd h
      next hni =>
        split at h
        next heq => exact ih visited v hnd h
        next data heq =>
          split at h
          next heq2 => exact Option.noConfusion h
          next v1 heq2 =>
            have hnd1 : (f :: visited).Nodup := List.nodup_cons.mpr ⟨hni, hnd⟩
            exact ih v1 v (ihf _ (f :: visited) v1 hnd1 heq2) h

theorem addMany_total (fs : List (String × FileData))
    (hk : (fs.map Prod.fst).Nodup) :
    ∀ (fuel : Nat) (l visited : List String),
    newCount fs visited ≤ fuel → (addMany fs fuel visited l).isSome = true := by
  intro fuel
  induction fuel with
  | zero =>
    intro l
    induction l with
    | nil =>
      intro visited _
      rw [addMany_nil]
      rfl
    | cons f rest ih =>
      intro visited hb
      rw [addMany_cons_zero]
      split
      next hmem => exact ih visited hb
      next hni =>
        split
        next heq => exact ih visited hb
        next data heq =>
          exfalso
          have hmem := lookupFS_mem fs f data heq
          have hpos : 0 < newCount fs visited := by
            unfold newCount
            refine List.length_pos_of_mem (a := f) ?_
            rw [List.mem_filter]
            exact ⟨hmem, by simp [hni]⟩
          omega
  | succ fuel' ihf =>
    intro l
    induction l with
    | nil =>
      intro visited _
      rw [addMany_nil]
      rfl
    | cons f rest ih =>
      intro visited hb
      rw [addMany_cons_succ]
      split
      next hmem => exact ih visited hb
      next hni =>
        split
        next heq => exact ih visited hb
        next data heq =>
          have hmem := lookupFS_mem fs f data heq
          have hdec : newCount fs (f :: visited) + 1 = newCount fs visited :=
            newCount_cons hk hmem hni
          have hb1 : newCount fs (f :: visited) ≤ fuel' := by omega
          have h1 := ihf (if data.isSrc then data.incs else []) (f :: visited) hb1
          cases heq2 : addMany fs fuel' (f :: visited)
              (if data.isSrc then data.incs else []) with
          | none =>
            rw [heq2] at h1
            exact Bool.noConfusion h1
          | some v1 =>
            have hsub : ∀ x ∈ f :: visited, x ∈ v1 :=
              addMany_subset fs fuel' _ _ _ heq2
            have hb2 : newCount fs v1 ≤ fuel' + 1 := by
              have h3 : newCount fs v1 ≤ newCount fs (f :: visited) :=
                newCount_subset hsub
              omega
            exact ih v1 hb2

/-- C7: the collector de-duplicates and terminates. (a) `addFile` on a path
already in the visited set returns immediately with the set unchanged, so no
file is ever processed twice; (b) consequently the visited set never
acquires duplicates; (c) recursion fuel equal to the number of existing,
not-yet-visited files always suffices (`isSome`), so include-following
terminates on every input, including a header including itself directly or
through a cycle. -/
theorem c7_collector :
    (∀ (fs : List (String × FileData)) (fuel : Nat) (visited : List String)
      (f : String), f ∈ visited → addFile fs fuel visited f = some visited) ∧
    (∀ (fs : List (String × FileData)) (fuel : Nat) (l visited v : List String),
      visited.Nodup → addMany fs fuel visited l = some v → v.Nodup) ∧
    (∀ (fs : List (String × FileData)) (fuel : Nat) (visited : List String)
      (f : String), (fs.map Prod.fst).Nodup → newCount fs visited ≤ fuel →
      (addFile fs fuel visited f).isSome = true) := by
  refine ⟨?_, ?_, ?_⟩
  · intro fs fuel visited f hmem
    unfold addFile
    rw [addMany_cons, if_pos hmem, addMany_nil]
  · intro fs fuel l visited v hnd h
    exact addMany_nodup fs fuel l visited v hnd h
  · intro fs fuel visited f hk hb
    exact addMany_total fs hk fuel [f] visited hb

/-- The C7 witness filesystem: a single header that includes itself. -/
def c7fs : List (String × FileData) := [("a.h", { isSrc := true, incs := ["a.h"] })]

/-- C7 (witness): the theorem applied to the self-including header — a
visited path returns immediately, the visited set stays duplicate-free, and
fuel equal to the number of undiscovered files suffices despite the include
cycle. -/
theorem c7_witness :
    addFile c7fs 0 ["a.h"] "a.h" = some ["a.h"] ∧
    (["a.h"] : List String).Nodup ∧
    (addFile c7fs 1 [] "a.h").isSome = true := by
  refine ⟨c7_collector.1 c7fs 0 ["a.h"] "a.h" (by simp), ?_, ?_⟩
  · have h2 : addMany c7fs 0 ["a.h"] ["a.h"] = some ["a.h"] := by
      rw [addMany_cons, if_pos (by simp), addMany_nil]
    exact c7_collector.2.1 c7fs 0 ["a.h"] ["a.h"] ["a.h"] (by simp) h2
  · exact c7_collector.2.2 c7fs 1 [] "a.h" (by simp [c7fs]) (by simp [newCount, c7fs])

end EmptyEpsilonDocs
